import Mathlib

/-!
Verification of the PyFECS sequence compiler against its specification.

Each definition below is a shallow embedding of the correspondingly named
Python entity from the repository (paths given in the doc comments).
Machine integers are modelled as `Nat`/`Int` with explicit `% 2 ^ w` where
the source relies on field widths; fallible code returns `Except String`.
-/

namespace PyFECS

/-! ## src/compiler/instructions.py -/

/-- `InstructionBits`: the two opcode bits of each instruction class. -/
def InstructionBits.wait : Nat := 0

/-- `InstructionBits.set = 2`. -/
def InstructionBits.set : Nat := 2

/-- `InstructionBits.jump = 1`. -/
def InstructionBits.jump : Nat := 1

/-- `InstructionBits.end = 3`. -/
def InstructionBits.end_ : Nat := 3

/-- `Instruction.TOTAL_LENGTH = (2 ** 32) - 1`. -/
def TOTAL_LENGTH : Nat := 2 ^ 32 - 1

/-- `Instruction.COMMAND_LOWEST_BIT = 30`. -/
def COMMAND_LOWEST_BIT : Nat := 30

/-- `Instruction.VALUE_MASK = (2 ** COMMAND_LOWEST_BIT) - 1`. -/
def VALUE_MASK : Nat := 2 ^ 30 - 1

/-- The four instruction classes with the fields from which their `value`
payload is computed (src/compiler/instructions.py).  A `SetInstruction`
carries `logic_value`, `mask` and `polarity_mask`; its payload is the
physical value `logic_value ^ polarity_mask`.  A `JumpInstruction` carries
the always-jump flag, the counter channel id, the threshold and the resolved
1-based destination address (`Instruction.address` returns
`_address + RAM_LOWEST_ADDRESS`, i.e. the 1-based RAM address). -/
inductive Instruction where
  | wait (duration : Nat)
  | set (logicValue mask polarityMask : Nat)
  | jump (alwaysJump : Bool) (channelId threshold destAddress : Nat)
  | endI
  deriving DecidableEq, Repr

/-- The `command` attribute set by each class constructor. -/
def Instruction.command : Instruction → Nat
  | .wait _ => InstructionBits.wait
  | .set _ _ _ => InstructionBits.set
  | .jump _ _ _ _ => InstructionBits.jump
  | .endI => InstructionBits.end_

/-- The `value` property of each instruction class.

* `WaitInstruction`: the stored duration.
* `SetInstruction.value`: raises when `logic_value` has bits outside `mask`
  (`logic_value - (logic_value & mask) != 0`), otherwise returns
  `logic_value ^ polarity_mask`.
* `JumpInstruction.value`: `int(always_jump) << 29` plus `channel_id << 26`
  plus `threshold << 10` plus the destination's 1-based address.  (The
  property's bookkeeping assertion that the jump is registered in
  `destination_instruction.destination_of` relates Python object graphs and
  is outside the numeric contract modelled here; `destAddress` is the
  destination's resolved address.)
* `EndInstruction`: the default payload `0`. -/
def Instruction.value : Instruction → Except String Nat
  | .wait d => .ok d
  | .set lv mask pol =>
      if lv - (lv &&& mask) ≠ 0 then
        .error "SetInstruction contains unmasked values. Inconsistent state."
      else
        .ok (lv ^^^ pol)
  | .jump a ch th dest =>
      .ok (a.toNat * 2 ^ 29 + ch * 2 ^ 26 + th * 2 ^ 10 + dest)
  | .endI => .ok 0

/-- `Instruction.bytes`: `command << COMMAND_LOWEST_BIT` plus the `value`
payload, rejecting a payload above `VALUE_MASK` and a word above
`TOTAL_LENGTH`. -/
def Instruction.bytes (i : Instruction) : Except String Nat :=
  match i.value with
  | .error e => .error e
  | .ok v =>
    if v > VALUE_MASK then
      .error "Value is too long."
    else
      let instruction := i.command * 2 ^ COMMAND_LOWEST_BIT + v
      if instruction > TOTAL_LENGTH then
        .error "Instruction is too long."
      else
        .ok instruction

/-- `WaitInstruction.duration(time, duration)`: rejects a duration above
`VALUE_MASK` ("Duration is too long.") or below 1 ("Duration is too
short."), otherwise builds a Wait at `time` with that duration.  The pair
returned is `(time, instruction)`. -/
def WaitInstruction.duration (time duration : Int) :
    Except String (Int × Instruction) :=
  if duration > (VALUE_MASK : Int) then .error "Duration is too long."
  else if duration < 1 then .error "Duration is too short."
  else .ok (time, .wait duration.toNat)

/-- The field view of a decoded 32-bit word: opcode plus the fields of the
external interface contract. -/
inductive Decoded where
  | wait (duration : Nat)
  | set (value : Nat)
  | jump (alwaysJump : Bool) (channelId threshold destAddress : Nat)
  | endI
  deriving DecidableEq, Repr

/-- Decode a 32-bit instruction word per the interface contract: bits
[31:30] opcode (`00`=WAIT, `01`=JUMP, `10`=SET, `11`=END); WAIT bits [29:0]
= duration; SET bits [23:0] = physical output value; JUMP bit [29] =
always-jump flag, bits [28:26] = counter channel id, bits [25:10] =
threshold, bits [9:0] = destination address.  Bit fields are extracted with
division and remainder by powers of two. -/
def decode (w : Nat) : Decoded :=
  if w / 2 ^ 30 = 0 then .wait (w % 2 ^ 30)
  else if w / 2 ^ 30 = 1 then
    .jump ((w / 2 ^ 29) % 2 == 1) ((w / 2 ^ 26) % 2 ^ 3)
      ((w / 2 ^ 10) % 2 ^ 16) (w % 2 ^ 10)
  else if w / 2 ^ 30 = 2 then .set (w % 2 ^ 24)
  else .endI

/-- The fields an instruction was constructed with, viewed as decoder
output: for a Set this is the physical value `logic_value ^ polarity_mask`
carried in bits [23:0] of the emitted word. -/
def Instruction.fields : Instruction → Decoded
  | .wait d => .wait d
  | .set lv _ pol => .set (lv ^^^ pol)
  | .jump a ch th dest => .jump a ch th dest
  | .endI => .endI

/-- Field-width bounds of C3: opcode implicit in the constructor; SET
physical value at most `2^24 - 1` (with the class invariant that
`logic_value` is covered by `mask`); WAIT duration between 1 and
`2^30 - 1`; JUMP threshold at most `2^16 - 1`, channel id at most 7,
destination address between 1 and `2^10 - 1`. -/
def Instruction.wellFormed : Instruction → Prop
  | .wait d => 1 ≤ d ∧ d ≤ 2 ^ 30 - 1
  | .set lv mask pol => lv &&& mask = lv ∧ lv ^^^ pol ≤ 2 ^ 24 - 1
  | .jump _ ch th dest =>
      ch ≤ 7 ∧ th ≤ 2 ^ 16 - 1 ∧ 1 ≤ dest ∧ dest ≤ 2 ^ 10 - 1
  | .endI => True

/-! ## src/compiler/compiler.py: `Compiler._add_wait_instructions` -/

/-- The loop body of `Compiler._add_wait_instructions`: walk the time-sorted
instruction list, carrying `last_time` (initially `-1`); reject an unsorted
or duplicate timestamp; otherwise compute `delta = time - last_time - 1` and,
when `delta` is nonzero, create `WaitInstruction.duration(last_time + 1,
delta - 1)`.  Returns created Wait instructions as `(time, instruction)`
pairs. -/
def addWaitLoop : Int → List Int → Except String (List (Int × Instruction))
  | _, [] => .ok []
  | lastTime, t :: rest =>
      if t < lastTime then .error "InstructionList is not sorted."
      else if t = lastTime then
        .error "InstructionList contains non-unique timestamps"
      else
        let delta := t - lastTime - 1
        if delta ≠ 0 then do
          let w ← WaitInstruction.duration (lastTime + 1) (delta - 1)
          let ws ← addWaitLoop t rest
          .ok (w :: ws)
        else addWaitLoop t rest

/-- `Compiler._add_wait_instructions` applied to the instruction-list
timestamps, starting from `last_time = -1`. -/
def add_wait_instructions (ticks : List Int) :
    Except String (List (Int × Instruction)) :=
  addWaitLoop (-1) ticks

/-- The Wait instructions the amended C4 predicts: one Wait at `prev + 1`
with duration `gap - 1` for every consecutive gap `gap = t - prev - 1` of at
least 2. -/
def expectedWaits : Int → List Int → List (Int × Instruction)
  | _, [] => []
  | prev, t :: rest =>
      if t - prev - 1 ≥ 2 then
        (prev + 1, .wait (t - prev - 1 - 1).toNat) :: expectedWaits t rest
      else expectedWaits t rest

/-- `true` when no consecutive pair (starting from the virtual previous time
`-1`) has a gap of exactly 1. -/
def noUnitGap : Int → List Int → Bool
  | _, [] => true
  | prev, t :: rest => (t - prev - 1 != 1) && noUnitGap t rest

/-- `true` when every consecutive gap is at most `2^30` (so that the created
duration `gap - 1` never exceeds `VALUE_MASK`). -/
def gapsWithinWidth : Int → List Int → Bool
  | _, [] => true
  | prev, t :: rest => (t - prev - 1 ≤ 2 ^ 30) && gapsWithinWidth t rest

theorem addWaitLoop_spec (prev : Int) (ticks : List Int)
    (hsorted : List.Chain' (· < ·) (prev :: ticks))
    (hwidth : gapsWithinWidth prev ticks = true) :
    (noUnitGap prev ticks = true →
      addWaitLoop prev ticks = .ok (expectedWaits prev ticks)) ∧
    (noUnitGap prev ticks = false →
      addWaitLoop prev ticks = .error "Duration is too short.") := by
  have hVM : ((VALUE_MASK : Nat) : Int) = 2 ^ 30 - 1 := by
    norm_num [VALUE_MASK]
  induction ticks generalizing prev with
  | nil => simp [addWaitLoop, noUnitGap, expectedWaits]
  | cons t rest ih =>
    rw [List.chain'_cons] at hsorted
    obtain ⟨hlt, hchain⟩ := hsorted
    rw [gapsWithinWidth, Bool.and_eq_true] at hwidth
    obtain ⟨hw1, hw2⟩ := hwidth
    rw [decide_eq_true_iff] at hw1
    have ihspec := ih t hchain hw2
    rw [noUnitGap, addWaitLoop, expectedWaits]
    rw [if_neg (by omega), if_neg (by omega)]
    by_cases hδ0 : t - prev - 1 = 0
    · rw [if_neg (by omega), if_neg (by omega)]
      simpa [hδ0] using ihspec
    · rw [if_pos (by omega)]
      by_cases hδ1 : t - prev - 1 = 1
      · rw [if_neg (by omega)]
        rw [WaitInstruction.duration, hVM, if_neg (by omega),
          if_pos (by omega)]
        exact ⟨fun hno => by simp [hδ1] at hno, fun _ => rfl⟩
      · rw [if_pos (by omega)]
        rw [WaitInstruction.duration, hVM, if_neg (by omega),
          if_neg (by omega)]
        constructor
        · intro hno
          rw [Bool.and_eq_true] at hno
          rw [ihspec.1 hno.2]
          rfl
        · intro hno
          have hrest : noUnitGap t rest = false := by
            by_contra hcon
            rw [Bool.not_eq_false] at hcon
            rw [hcon, Bool.and_true, bne_eq_false_iff_eq] at hno
            exact hδ1 hno
          rw [ihspec.2 hrest]
          rfl

/-- C3: for every instruction whose fields lie within their encoded widths
(opcode in 0..3; SET physical value at most `2^24 - 1`; WAIT duration
between 1 and `2^30 - 1`; JUMP threshold at most `2^16 - 1`, counter
channel id at most 7, destination address between 1 and `2^10 - 1`),
decoding the 32-bit word produced by the `bytes` property — opcode from
bits [31:30], WAIT duration from bits [29:0], SET value from bits [23:0],
JUMP always-jump flag from bit 29, channel id from bits [28:26], threshold
from bits [25:10], destination address from bits [9:0] — reproduces exactly
the opcode and field values the instruction was constructed with. -/
theorem bytes_decode_roundtrip (i : Instruction) (h : i.wellFormed) :
    ∃ w, i.bytes = Except.ok w ∧ decode w = i.fields := by
  cases i with
  | wait d =>
    obtain ⟨h1, h2⟩ := h
    refine ⟨d, ?_, ?_⟩
    · simp only [Instruction.bytes, Instruction.value, Instruction.command,
        InstructionBits.wait, VALUE_MASK, TOTAL_LENGTH, COMMAND_LOWEST_BIT,
        gt_iff_lt]
      rw [if_neg (by omega), if_neg (by omega)]
      norm_num
    · rw [decode, if_pos (by omega), Instruction.fields,
        Nat.mod_eq_of_lt (by omega)]
  | set lv mask pol =>
    obtain ⟨h1, h2⟩ := h
    refine ⟨2 * 2 ^ 30 + (lv ^^^ pol), ?_, ?_⟩
    · simp only [Instruction.bytes, Instruction.value, Instruction.command,
        InstructionBits.set, VALUE_MASK, TOTAL_LENGTH, COMMAND_LOWEST_BIT,
        h1, Nat.sub_self, ne_eq, not_true_eq_false, if_false,
        gt_iff_lt]
      rw [if_neg (by omega), if_neg (by omega)]
    · rw [decode, if_neg (by omega), if_neg (by omega), if_pos (by omega),
        Instruction.fields]
      congr 1
      omega
  | jump a ch th dest =>
    obtain ⟨h1, h2, h3, h4⟩ := h
    have ha : a.toNat ≤ 1 := Bool.toNat_le a
    refine ⟨2 ^ 30 + (a.toNat * 2 ^ 29 + ch * 2 ^ 26 + th * 2 ^ 10 + dest),
      ?_, ?_⟩
    · simp only [Instruction.bytes, Instruction.value, Instruction.command,
        InstructionBits.jump, VALUE_MASK, TOTAL_LENGTH, COMMAND_LOWEST_BIT,
        gt_iff_lt]
      rw [if_neg (by omega), if_neg (by omega)]
      norm_num
    · rw [decode, if_neg (by omega), if_pos (by omega), Instruction.fields]
      have hdiv29 :
          (2 ^ 30 + (a.toNat * 2 ^ 29 + ch * 2 ^ 26 + th * 2 ^ 10 + dest))
            / 2 ^ 29 % 2 = a.toNat := by omega
      have hdiv26 :
          (2 ^ 30 + (a.toNat * 2 ^ 29 + ch * 2 ^ 26 + th * 2 ^ 10 + dest))
            / 2 ^ 26 % 2 ^ 3 = ch := by omega
      have hdiv10 :
          (2 ^ 30 + (a.toNat * 2 ^ 29 + ch * 2 ^ 26 + th * 2 ^ 10 + dest))
            / 2 ^ 10 % 2 ^ 16 = th := by omega
      have hmod10 :
          (2 ^ 30 + (a.toNat * 2 ^ 29 + ch * 2 ^ 26 + th * 2 ^ 10 + dest))
            % 2 ^ 10 = dest := by omega
      rw [hdiv29, hdiv26, hdiv10, hmod10]
      cases a <;> rfl
  | endI =>
    refine ⟨3 * 2 ^ 30, ?_, ?_⟩
    · simp only [Instruction.bytes, Instruction.value, Instruction.command,
        InstructionBits.end_, VALUE_MASK, TOTAL_LENGTH, COMMAND_LOWEST_BIT,
        gt_iff_lt]
      rw [if_neg (by omega), if_neg (by omega)]
      norm_num
    · rw [decode, if_neg (by omega), if_neg (by omega), if_neg (by omega),
        Instruction.fields]

/-- Witness for C3: a concrete conditional jump instruction with channel 3,
threshold 500 and destination address 7 round-trips through `bytes` and
`decode`. -/
theorem bytes_decode_roundtrip_witness :
    ∃ w, (Instruction.jump true 3 500 7).bytes = Except.ok w ∧
      decode w = (Instruction.jump true 3 500 7).fields :=
  bytes_decode_roundtrip (Instruction.jump true 3 500 7)
    (by norm_num [Instruction.wellFormed])

/-- C4 (amended): walking the sorted, duplicate-free tick list with
`gap = t - t_prev - 1` for consecutive ticks (the initial previous time is
`-1`): a gap of zero inserts no Wait; every gap of at least 2 inserts a Wait
of duration `gap - 1` at tick `t_prev + 1`; but a gap of exactly 1 makes
`WaitInstruction.duration` reject the computed duration 0, so the whole
pass fails with "Duration is too short." instead of inserting a Wait. -/
theorem add_wait_instructions_gapfill (ticks : List Int)
    (hsorted : List.Chain' (· < ·) ((-1) :: ticks))
    (hwidth : gapsWithinWidth (-1) ticks = true) :
    (noUnitGap (-1) ticks = true →
      add_wait_instructions ticks = .ok (expectedWaits (-1) ticks)) ∧
    (noUnitGap (-1) ticks = false →
      add_wait_instructions ticks = .error "Duration is too short.") :=
  addWaitLoop_spec (-1) ticks hsorted hwidth

/-- Witness for C4 (amended): ticks 0 and 5 produce exactly one Wait, at
tick 1, of duration 3 (`gap = 4`). -/
theorem add_wait_instructions_gapfill_witness :
    add_wait_instructions [0, 5] = .ok (expectedWaits (-1) [0, 5]) :=
  (add_wait_instructions_gapfill [0, 5]
    (by norm_num [List.chain'_cons, List.chain'_singleton])
    (by decide)).1 (by decide)

/-- Counterexample to C4 as stated: for consecutive ticks 0 and 2 the gap is
exactly 1, and instead of succeeding the pass raises "Duration is too
short." (the Wait would need duration 0, which `WaitInstruction.duration`
rejects). -/
theorem add_wait_instructions_unit_gap_fails :
    add_wait_instructions [0, 2] = .error "Duration is too short." := by
  rfl

/-! ## src/compiler/instructions.py: `SetInstruction.combine` -/

/-- `SetInstruction.OUTPUT_BUS_LENGTH = 24`. -/
def OUTPUT_BUS_LENGTH : Nat := 24

/-- The per-object fields of a `SetInstruction` that `combine` and
`compress` read and write: the scheduled `time`, `logic_value`, `mask` and
the optional block tag `part_of`.  (The `destination_of` lists that
`combine` concatenates are bookkeeping between Python objects and carry no
numeric content; they affect neither instruction counts nor times.) -/
structure SetData where
  time : Int
  logic_value : Nat
  mask : Nat
  part_of : Option String
  deriving DecidableEq, Repr

/-- Intermediate state of the `combine` loop: the accumulated `value`,
`mask` and `part_of`. -/
structure CombineState where
  value : Nat
  mask : Nat
  part_of : Option String
  deriving DecidableEq, Repr

/-- The inner `for channel_id in range(OUTPUT_BUS_LENGTH)` body of
`SetInstruction.combine`, run when the incoming instruction's mask overlaps
the accumulated mask: for each channel claimed by the instruction, a channel
already set keeps the accumulated value — a disagreeing value is tolerated
exactly when the channel lies in `control_mask` and is a fatal conflict
otherwise — and a channel not yet set is copied in and added to the mask. -/
def combineChannel (control_mask : Nat) (inst : SetData) :
    Nat × Nat → Nat → Except String (Nat × Nat)
  | (value, mask), channel_id =>
    if inst.mask &&& 2 ^ channel_id ≠ 0 then
      if mask &&& 2 ^ channel_id ≠ 0 then
        if value &&& 2 ^ channel_id = inst.logic_value &&& 2 ^ channel_id then
          .ok (value, mask)
        else if control_mask &&& 2 ^ channel_id ≠ 0 then
          .ok (value, mask)
        else
          .error ("Conflicting SetInstructions cannot be combined. Ensure " ++
            "that list is sorted and compressed prior to inheriting. " ++
            "Channel " ++ toString channel_id)
      else
        .ok (value ||| (inst.logic_value &&& 2 ^ channel_id),
          mask ||| 2 ^ channel_id)
    else
      .ok (value, mask)

/-- The mask-merging tail of the `combine` loop body: merge the instruction
wholesale when its mask is disjoint from the accumulated mask
(`value |= logic_value; mask += mask`), and channel by channel otherwise. -/
def combineMerge (control_mask : Nat) (value mask : Nat)
    (pf : Option String) (inst : SetData) : Except String CombineState :=
  if inst.mask &&& mask = 0 then
    .ok ⟨value ||| inst.logic_value, mask + inst.mask, pf⟩
  else do
    let vm ← (List.range OUTPUT_BUS_LENGTH).foldlM
      (combineChannel control_mask inst) (value, mask)
    .ok ⟨vm.1, vm.2, pf⟩

/-- One iteration of the `for instruction in args` loop of
`SetInstruction.combine`: reject a differing time; adopt the instruction's
block tag when none is held yet and reject the combination when both the
accumulated state and the instruction carry a (non-None) tag — whether the
two tags agree ("within the same block") or not ("from different blocks");
then merge the masks and values. -/
def combineStep (control_mask : Nat) (time : Int) (st : CombineState)
    (inst : SetData) : Except String CombineState :=
  if inst.time ≠ time then
    .error "Can only combine instructions with identical instruction time."
  else
    match inst.part_of, st.part_of with
    | some b, some p =>
        if p = b then
          .error "Cannot combine SetInstructions within the same block."
        else
          .error "Cannot combine SetInstructions from different blocks."
    | some b, none =>
        combineMerge control_mask st.value st.mask (some b) inst
    | none, p =>
        combineMerge control_mask st.value st.mask p inst

/-- `SetInstruction.combine(control_mask, *args)`: fold the loop body over
the argument instructions, starting from value 0, mask 0 and no block tag,
taking the first argument's time as the reference time; the combined
instruction carries the accumulated value as its `logic_value`, the
accumulated mask and the accumulated block tag.  (Python would raise
`IndexError` on an empty argument tuple when reading `args[0].time`.) -/
def SetInstruction.combine (control_mask : Nat) (args : List SetData) :
    Except String SetData :=
  match args with
  | [] => .error "combine requires at least one instruction"
  | a0 :: _ => do
      let st ← args.foldlM (combineStep control_mask a0.time) ⟨0, 0, none⟩
      .ok ⟨a0.time, st.value, st.mask, st.part_of⟩

/-! ## src/compiler/instruction_list.py -/

/-- An entry of `InstructionList.list`: the `(time, command, instruction)`
triple.  For the list-level operations modelled here only a Set's payload
matters; Wait, Jump and End instructions are carried through with their
scheduled time and command code. -/
inductive LEntry where
  | set (s : SetData)
  | other (time : Int) (command : Nat)
  deriving DecidableEq, Repr

/-- The entry's scheduled time (first component of the stored triple). -/
def LEntry.time : LEntry → Int
  | .set s => s.time
  | .other t _ => t

/-- The entry's command code (second component of the stored triple). -/
def LEntry.command : LEntry → Nat
  | .set _ => InstructionBits.set
  | .other _ c => c

/-- `isinstance(instruction, SetInstruction)`. -/
def LEntry.isSet : LEntry → Bool
  | .set _ => true
  | .other _ _ => false

/-- The comparison key used by `InstructionList.sort` (`sorted` over
`(time, type_, instruction)` tuples): lexicographic on time, then command.
(Python 2 breaks remaining ties by comparing the instruction objects
themselves, an arbitrary but fixed order; a stable sort on the first two
components models any such tie-break up to reordering of equal keys.) -/
def entryLE (a b : LEntry) : Bool :=
  a.time < b.time || (a.time = b.time && a.command ≤ b.command)

/-- `InstructionList.sort`: replace the list by its sorted version. -/
def sortEntries (l : List LEntry) : List LEntry :=
  l.mergeSort entryLE

/-- The `SetInstruction` payloads of the entries, in list order
(`InstructionList.filter(list, SetInstruction)`, kept part). -/
def setsOf (l : List LEntry) : List SetData :=
  l.filterMap fun e =>
    match e with
    | .set s => some s
    | .other _ _ => none

/-- The per-time body of `InstructionList.compress`: collect the
instructions at time `t` (`get_time`), split off the Sets
(`filter(all_instructions, SetInstruction)`), combine the Sets into a
single Set when there are any, and append the other instructions
unchanged. -/
def compressGroup (control_mask : Nat) (l : List LEntry) (t : Int) :
    Except String (List LEntry) :=
  let all := l.filter fun e => e.time == t
  let sets := setsOf all
  let others := all.filter fun e => !e.isSet
  match sets with
  | [] => pure others
  | _ => do
      let c ← SetInstruction.combine control_mask sets
      pure (LEntry.set c :: others)

/-- `InstructionList.compress(control_mask)`: sort; run the per-time body
for every time value occurring in the list; rebuild the list from the
per-time groups and sort again.  (The Python source iterates over
`set(times)`, whose order is unspecified; the model iterates over the
distinct times in first-occurrence order — the final sort makes the outcome
independent of that choice up to reordering of equal sort keys.) -/
def InstructionList.compress (control_mask : Nat) (l0 : List LEntry) :
    Except String (List LEntry) := do
  let l := sortEntries l0
  let groups ← ((l.map LEntry.time).dedup).mapM (compressGroup control_mask l)
  pure (sortEntries groups.flatten)

/-- `Instruction.RAM_LOWEST_ADDRESS = 1`: IPU RAM addresses are 1-based;
the exposed `address` property returns the assigned index plus this. -/
def RAM_LOWEST_ADDRESS : Nat := 1

/-- The scan of `InstructionList.assign_addresses` after the initial sort:
walk the entries with `current_time` (initially `-1`), rejecting an entry at
the current time ("more than one instruction per time step") or before it
("not sorted properly"), and pair each entry with its exposed 1-based
address `i + RAM_LOWEST_ADDRESS`. -/
def assignLoop : Int → Nat → List LEntry →
    Except String (List (LEntry × Nat))
  | _, _, [] => .ok []
  | current, i, e :: rest =>
      if e.time = current then
        .error ("Trying to assign addresses to instructions in list which " ++
          "contains more than one instruction per time step.")
      else if e.time < current then
        .error ("Trying to assign addresses to instructions in list which " ++
          "is not sorted properly.")
      else do
        let out ← assignLoop e.time (i + 1) rest
        .ok ((e, i + RAM_LOWEST_ADDRESS) :: out)

/-- `InstructionList.assign_addresses`: sort the list first (`self.sort()`),
then run the duplicate/order scan and assign addresses `0..N-1` (exposed as
`1..N`). -/
def assign_addresses (l : List LEntry) :
    Except String (List (LEntry × Nat)) :=
  assignLoop (-1) 0 (sortEntries l)

/-! ### Bit-level helper lemmas for `combine` -/

theorem and_two_pow_ne_zero (a c : Nat) :
    (a &&& 2 ^ c ≠ 0) ↔ a.testBit c = true := by
  rw [Nat.and_two_pow]
  cases h : a.testBit c <;>
    simp [h, pow_ne_zero c (by norm_num : (2 : Nat) ≠ 0)]

theorem and_two_pow_eq_iff (a b c : Nat) :
    (a &&& 2 ^ c = b &&& 2 ^ c) ↔ (a.testBit c = b.testBit c) := by
  rw [Nat.and_two_pow, Nat.and_two_pow]
  constructor
  · intro h
    have h2 : (a.testBit c).toNat = (b.testBit c).toNat :=
      Nat.eq_of_mul_eq_mul_right (Nat.pos_pow_of_pos c (by norm_num)) h
    cases ha : a.testBit c <;> cases hb : b.testBit c <;>
      simp [ha, hb] at h2 ⊢
  · intro h
    rw [h]

theorem testBit_of_cover (a m : Nat) (h : a &&& m = a) (x : Nat)
    (hx : m.testBit x = false) : a.testBit x = false := by
  conv_lhs => rw [← h]
  simp [Nat.testBit_and, hx]

/-- A fatal conflict of the incoming instruction `inst` against the
accumulated `(v0, m0)` at channel `ch`: both claim the channel, the values
disagree, and the channel is outside the control-register mask. -/
def fatalConflict (control_mask : Nat) (inst : SetData) (v0 m0 : Nat)
    (ch : Nat) : Prop :=
  inst.mask.testBit ch = true ∧ m0.testBit ch = true ∧
    v0.testBit ch ≠ inst.logic_value.testBit ch ∧
    control_mask.testBit ch = false

/-- Channels already accumulated before the channel loop started keep their
mask bit and value bit. -/
def keepsBits (v0 m0 v m : Nat) : Prop :=
  ∀ x, m0.testBit x = true → m.testBit x = true ∧ v.testBit x = v0.testBit x

/-- Channels outside the initially accumulated mask hold the incoming
instruction's value bit once their mask bit is set, and 0 before. -/
def fillsBits (lv v m0 m : Nat) : Prop :=
  ∀ x, m0.testBit x = false →
    (m.testBit x = true → v.testBit x = lv.testBit x) ∧
    (m.testBit x = false → v.testBit x = false)

/-- An `ok` step of the channel loop never disturbs the mask and value bits
of channels accumulated before the loop started. -/
theorem combineChannel_ok_keeps (cm : Nat) (inst : SetData)
    {v m c v' m' : Nat}
    (h : combineChannel cm inst (v, m) c = .ok (v', m'))
    (v0 m0 : Nat) (hk : keepsBits v0 m0 v m) : keepsBits v0 m0 v' m' := by
  simp only [combineChannel] at h
  split_ifs at h with h1 h2 h3 h4 <;>
    simp only [Except.ok.injEq, Prod.mk.injEq] at h
  all_goals try (obtain ⟨rfl, rfl⟩ := h; exact hk)
  -- remaining: the update branch, where the channel bit was not yet set
  obtain ⟨rfl, rfl⟩ := h
  have hmc : m.testBit c = false := by
    rcases Bool.eq_false_or_eq_true (m.testBit c) with hb | hb
    · exact absurd ((and_two_pow_ne_zero m c).mpr hb) h2
    · exact hb
  intro x hx
  obtain ⟨hkm, hkv⟩ := hk x hx
  have hxc : c ≠ x := by
    intro he
    rw [he, hkm] at hmc
    simp at hmc
  constructor
  · simp [Nat.testBit_or, hkm]
  · simp [Nat.testBit_or, Nat.testBit_and, Nat.testBit_two_pow_of_ne hxc, hkv]

theorem and_ne_zero_of_testBit (a b : Nat) (ch : Nat)
    (ha : a.testBit ch = true) (hb : b.testBit ch = true) : a &&& b ≠ 0 := by
  intro h
  have hbit := Nat.testBit_and a b ch
  rw [h, ha, hb, Nat.zero_testBit] at hbit
  simp at hbit

/-- With the pre-loop bits intact, the channel-loop body raises the
conflict error at a fatally conflicting channel. -/
theorem combineChannel_err (cm : Nat) (inst : SetData) {v m : Nat} (c : Nat)
    (v0 m0 : Nat) (hk : keepsBits v0 m0 v m)
    (hf : fatalConflict cm inst v0 m0 c) :
    ∃ e, combineChannel cm inst (v, m) c = .error e := by
  obtain ⟨hf1, hf2, hf3, hf4⟩ := hf
  obtain ⟨hkm, hkv⟩ := hk c hf2
  have hne : ¬(v &&& 2 ^ c = inst.logic_value &&& 2 ^ c) := by
    rw [and_two_pow_eq_iff, hkv]
    exact hf3
  have hcm : ¬(cm &&& 2 ^ c ≠ 0) := by
    rw [and_two_pow_ne_zero, hf4]
    simp
  refine ⟨"Conflicting SetInstructions cannot be combined. Ensure " ++
    "that list is sorted and compressed prior to inheriting. " ++
    "Channel " ++ toString c, ?_⟩
  simp only [combineChannel]
  rw [if_pos ((and_two_pow_ne_zero _ _).mpr hf1),
    if_pos ((and_two_pow_ne_zero _ _).mpr hkm), if_neg hne, if_neg hcm]

/-- At a channel without fatal conflict the loop body succeeds and both
bit invariants are preserved. -/
theorem combineChannel_ok_of_not_fatal (cm : Nat) (inst : SetData)
    {v m : Nat} (c : Nat) (v0 m0 : Nat)
    (hk : keepsBits v0 m0 v m) (hfl : fillsBits inst.logic_value v m0 m)
    (hnf : ¬ fatalConflict cm inst v0 m0 c) :
    ∃ v' m', combineChannel cm inst (v, m) c = .ok (v', m') ∧
      keepsBits v0 m0 v' m' ∧ fillsBits inst.logic_value v' m0 m' := by
  by_cases h1 : inst.mask &&& 2 ^ c ≠ 0
  · by_cases h2 : m &&& 2 ^ c ≠ 0
    · have hmc : m.testBit c = true := (and_two_pow_ne_zero m c).mp h2
      by_cases h3 : v &&& 2 ^ c = inst.logic_value &&& 2 ^ c
      · refine ⟨v, m, ?_, hk, hfl⟩
        simp only [combineChannel]
        rw [if_pos h1, if_pos h2, if_pos h3]
      · have hvc : v.testBit c ≠ inst.logic_value.testBit c := fun he =>
          h3 ((and_two_pow_eq_iff v inst.logic_value c).mpr he)
        cases hb0 : m0.testBit c with
        | false =>
          -- the channel was entered during this loop: its value bit equals
          -- the instruction bit, contradicting the failed comparison
          exact absurd ((hfl c hb0).1 hmc) hvc
        | true =>
          -- a pre-loop conflict: tolerated only through the control mask
          have hcmc : cm.testBit c = true := by
            cases hcb : cm.testBit c with
            | false =>
              refine absurd ?_ hnf
              refine ⟨(and_two_pow_ne_zero _ _).mp h1, hb0, ?_, hcb⟩
              rw [← (hk c hb0).2]
              exact hvc
            | true => rfl
          refine ⟨v, m, ?_, hk, hfl⟩
          simp only [combineChannel]
          rw [if_pos h1, if_pos h2, if_neg h3,
            if_pos ((and_two_pow_ne_zero cm c).mpr hcmc)]
    · have hmc : m.testBit c = false := by
        cases hcb : m.testBit c with
        | false => rfl
        | true => exact absurd ((and_two_pow_ne_zero m c).mpr hcb) h2
      refine ⟨v ||| (inst.logic_value &&& 2 ^ c), m ||| 2 ^ c, ?_, ?_, ?_⟩
      · simp only [combineChannel]
        rw [if_pos h1, if_neg h2]
      · intro x hx
        obtain ⟨hkm, hkv⟩ := hk x hx
        have hxc : c ≠ x := by
          intro he
          rw [he, hkm] at hmc
          simp at hmc
        constructor
        · simp [Nat.testBit_or, hkm]
        · simp [Nat.testBit_or, Nat.testBit_and,
            Nat.testBit_two_pow_of_ne hxc, hkv]
      · intro x hx
        by_cases hxc : x = c
        · subst hxc
          have hvz : v.testBit x = false := (hfl x hx).2 hmc
          constructor
          · intro _
            simp [Nat.testBit_or, Nat.testBit_and, hvz,
              Nat.testBit_two_pow_self]
          · intro hcon
            rw [Nat.testBit_or, Nat.testBit_two_pow_self, Bool.or_true] at hcon
            simp at hcon
        · have h2x : (2 ^ c).testBit x = false :=
            Nat.testBit_two_pow_of_ne (fun he => hxc he.symm)
          obtain ⟨hf1, hf2⟩ := hfl x hx
          constructor
          · intro hm'
            rw [Nat.testBit_or, h2x, Bool.or_false] at hm'
            simp [Nat.testBit_or, Nat.testBit_and, h2x, hf1 hm']
          · intro hm'
            rw [Nat.testBit_or, h2x, Bool.or_false] at hm'
            simp [Nat.testBit_or, Nat.testBit_and, h2x, hf2 hm']
  · refine ⟨v, m, ?_, hk, hfl⟩
    simp only [combineChannel]
    rw [if_neg h1]

/-- The channel loop errors when some listed channel holds a fatal
conflict against the pre-loop accumulated bits. -/
theorem foldChan_err (cm : Nat) (inst : SetData) (l : List Nat)
    {v m : Nat} (v0 m0 : Nat) (hk : keepsBits v0 m0 v m)
    (hex : ∃ c ∈ l, fatalConflict cm inst v0 m0 c) :
    ∃ e, l.foldlM (combineChannel cm inst) (v, m) = .error e := by
  induction l generalizing v m with
  | nil => simp at hex
  | cons c0 rest ih =>
    obtain ⟨c, hc, hfat⟩ := hex
    rcases hres : combineChannel cm inst (v, m) c0 with e | vm'
    · refine ⟨e, ?_⟩
      rw [List.foldlM_cons, hres]
      rfl
    · obtain ⟨v', m'⟩ := vm'
      have hk' := combineChannel_ok_keeps cm inst hres v0 m0 hk
      rcases List.mem_cons.mp hc with rfl | hcr
      · obtain ⟨e, herr⟩ := combineChannel_err cm inst c v0 m0 hk hfat
        rw [herr] at hres
        cases hres
      · obtain ⟨e, hrec⟩ := ih hk' ⟨c, hcr, hfat⟩
        refine ⟨e, ?_⟩
        rw [List.foldlM_cons, hres]
        exact hrec

/-- The channel loop succeeds, keeping all pre-loop bits, when no listed
channel holds a fatal conflict. -/
theorem foldChan_ok (cm : Nat) (inst : SetData) (l : List Nat)
    {v m : Nat} (v0 m0 : Nat) (hk : keepsBits v0 m0 v m)
    (hfl : fillsBits inst.logic_value v m0 m)
    (hall : ∀ c ∈ l, ¬ fatalConflict cm inst v0 m0 c) :
    ∃ v' m', l.foldlM (combineChannel cm inst) (v, m) = .ok (v', m') ∧
      keepsBits v0 m0 v' m' := by
  induction l generalizing v m with
  | nil => exact ⟨v, m, rfl, hk⟩
  | cons c0 rest ih =>
    obtain ⟨v1, m1, hstep, hk1, hfl1⟩ :=
      combineChannel_ok_of_not_fatal cm inst c0 v0 m0 hk hfl
        (hall c0 (List.mem_cons_self c0 rest))
    obtain ⟨v', m', hrec, hk'⟩ :=
      ih hk1 hfl1 (fun c hc => hall c (List.mem_cons_of_mem _ hc))
    refine ⟨v', m', ?_, hk'⟩
    rw [List.foldlM_cons, hstep]
    exact hrec

/-- The first iteration of the `combine` loop, run from the initial state
(value 0, mask 0, no block tag), adopts the first instruction's value, mask
and block tag. -/
theorem combineStep_first (cm : Nat) (s1 : SetData) :
    combineStep cm s1.time ⟨0, 0, none⟩ s1 =
      .ok ⟨s1.logic_value, s1.mask, s1.part_of⟩ := by
  simp only [combineStep]
  rw [if_neg (by simp)]
  cases hp : s1.part_of with
  | none => simp [combineMerge, Nat.and_zero]
  | some b => simp [combineMerge, Nat.and_zero]

/-- Binding an `ok` result reduces to applying the continuation. -/
theorem ok_bind {α β : Type} (a : α) (f : α → Except String β) :
    (Except.ok a >>= f) = f a := rfl

/-- Binding an error propagates the error. -/
theorem error_bind {α β : Type} (e : String) (f : α → Except String β) :
    ((Except.error e : Except String α) >>= f) = Except.error e := rfl

/-- Evaluation of `combine` on a two-element argument list in terms of the
second loop iteration. -/
theorem combine_two_ok (cm : Nat) (s1 s2 : SetData) (st : CombineState)
    (h2 : combineStep cm s1.time ⟨s1.logic_value, s1.mask, s1.part_of⟩ s2 =
      .ok st) :
    SetInstruction.combine cm [s1, s2] =
      .ok ⟨s1.time, st.value, st.mask, st.part_of⟩ := by
  simp only [SetInstruction.combine, List.foldlM_cons, List.foldlM_nil,
    combineStep_first, ok_bind]
  rw [h2]
  rfl

/-- Evaluation of `combine` on a two-element argument list when the second
loop iteration raises. -/
theorem combine_two_err (cm : Nat) (s1 s2 : SetData) (e : String)
    (h2 : combineStep cm s1.time ⟨s1.logic_value, s1.mask, s1.part_of⟩ s2 =
      .error e) :
    SetInstruction.combine cm [s1, s2] = .error e := by
  simp only [SetInstruction.combine, List.foldlM_cons, List.foldlM_nil,
    combineStep_first, ok_bind]
  rw [h2]
  rfl

/-- The second iteration of the `combine` loop reaches the mask-merging
tail whenever at most one of the two instructions carries a block tag; the
carried tag is the one present (if any). -/
theorem combineStep_second_merge (cm : Nat) (s1 s2 : SetData)
    (htime : s2.time = s1.time)
    (hnb : s1.part_of = none ∨ s2.part_of = none) :
    ∃ pf, combineStep cm s1.time ⟨s1.logic_value, s1.mask, s1.part_of⟩ s2 =
      combineMerge cm s1.logic_value s1.mask pf s2 := by
  rcases hp1 : s1.part_of with _ | b1
  · rcases hp2 : s2.part_of with _ | b2
    · exact ⟨none, by simp [combineStep, htime, hp1, hp2]⟩
    · exact ⟨some b2, by simp [combineStep, htime, hp1, hp2]⟩
  · rcases hp2 : s2.part_of with _ | b2
    · exact ⟨some b1, by simp [combineStep, htime, hp1, hp2]⟩
    · rcases hnb with h | h
      · rw [hp1] at h
        cases h
      · rw [hp2] at h
        cases h

/-- C8: for every call of `SetInstruction.combine` on two Sets sharing one
tick: if the two Sets assign different values to the same channel bit,
`combine` raises a fatal error unless that bit lies within `control_mask`,
in which case the conflict is tolerated and the value already accumulated
(the first instruction's) is kept; and two input Sets that both carry a
(non-None) block tag are never merged — the same-block case and the
different-blocks case both raise an error. -/
theorem combine_conflict_policy (control_mask : Nat) (s1 s2 : SetData)
    (htime : s2.time = s1.time) :
    (∀ b1 b2, s1.part_of = some b1 → s2.part_of = some b2 →
      ∃ e, SetInstruction.combine control_mask [s1, s2] = .error e) ∧
    (∀ ch, ch < OUTPUT_BUS_LENGTH →
      s1.mask.testBit ch = true → s2.mask.testBit ch = true →
      s1.logic_value.testBit ch ≠ s2.logic_value.testBit ch →
      control_mask.testBit ch = false →
      ∃ e, SetInstruction.combine control_mask [s1, s2] = .error e) ∧
    ((s1.part_of = none ∨ s2.part_of = none) →
      s1.logic_value &&& s1.mask = s1.logic_value →
      s2.logic_value &&& s2.mask = s2.logic_value →
      (∀ ch, s1.mask.testBit ch = true → s2.mask.testBit ch = true →
        s1.logic_value.testBit ch ≠ s2.logic_value.testBit ch →
        control_mask.testBit ch = true) →
      ∃ r, SetInstruction.combine control_mask [s1, s2] = .ok r ∧
        ∀ ch, s1.mask.testBit ch = true →
          r.logic_value.testBit ch = s1.logic_value.testBit ch) := by
  have htne : ¬(s2.time ≠ s1.time) := by simp [htime]
  have hkeeps0 : keepsBits s1.logic_value s1.mask s1.logic_value s1.mask :=
    fun x hx => ⟨hx, rfl⟩
  refine ⟨?_, ?_, ?_⟩
  · intro b1 b2 hb1 hb2
    refine ⟨if b1 = b2 then
        "Cannot combine SetInstructions within the same block."
      else "Cannot combine SetInstructions from different blocks.",
      combine_two_err _ _ _ _ ?_⟩
    simp only [combineStep]
    rw [if_neg htne]
    simp only [hb1, hb2]
    by_cases hbb : b1 = b2 <;> simp [hbb]
  · intro ch hch hm1 hm2 hlv hcm
    have hfat : fatalConflict control_mask s2 s1.logic_value s1.mask ch :=
      ⟨hm2, hm1, hlv, hcm⟩
    have hover : s2.mask &&& s1.mask ≠ 0 :=
      and_ne_zero_of_testBit _ _ ch hm2 hm1
    obtain ⟨e, hfold⟩ := foldChan_err control_mask s2
      (List.range OUTPUT_BUS_LENGTH) s1.logic_value s1.mask hkeeps0
      ⟨ch, List.mem_range.mpr hch, hfat⟩
    have hmerge : ∀ pf,
        combineMerge control_mask s1.logic_value s1.mask pf s2 = .error e := by
      intro pf
      simp only [combineMerge]
      rw [if_neg hover, hfold]
      rfl
    rcases hp1 : s1.part_of with _ | b1
    · obtain ⟨pf, hstep⟩ :=
        combineStep_second_merge control_mask s1 s2 htime (Or.inl hp1)
      exact ⟨e, combine_two_err _ _ _ _ (by rw [hstep]; exact hmerge pf)⟩
    · rcases hp2 : s2.part_of with _ | b2
      · obtain ⟨pf, hstep⟩ :=
          combineStep_second_merge control_mask s1 s2 htime (Or.inr hp2)
        exact ⟨e, combine_two_err _ _ _ _ (by rw [hstep]; exact hmerge pf)⟩
      · refine ⟨if b1 = b2 then
            "Cannot combine SetInstructions within the same block."
          else "Cannot combine SetInstructions from different blocks.",
          combine_two_err _ _ _ _ ?_⟩
        simp only [combineStep]
        rw [if_neg htne]
        simp only [hp1, hp2]
        by_cases hbb : b1 = b2 <;> simp [hbb]
  · intro hnb hcov1 hcov2 htol
    obtain ⟨pf, hstep⟩ := combineStep_second_merge control_mask s1 s2 htime hnb
    by_cases hdisj : s2.mask &&& s1.mask = 0
    · have hres : combineMerge control_mask s1.logic_value s1.mask pf s2 =
          .ok ⟨s1.logic_value ||| s2.logic_value, s1.mask + s2.mask, pf⟩ := by
        simp only [combineMerge]
        rw [if_pos hdisj]
      refine ⟨⟨s1.time, s1.logic_value ||| s2.logic_value,
        s1.mask + s2.mask, pf⟩,
        combine_two_ok _ _ _ _ (by rw [hstep]; exact hres), ?_⟩
      intro ch hch
      have h2m : s2.mask.testBit ch = false := by
        cases hb : s2.mask.testBit ch with
        | false => rfl
        | true => exact absurd hdisj (and_ne_zero_of_testBit _ _ ch hb hch)
      have h2v : s2.logic_value.testBit ch = false :=
        testBit_of_cover _ _ hcov2 ch h2m
      simp [Nat.testBit_or, h2v]
    · have hfill0 : fillsBits s2.logic_value s1.logic_value s1.mask s1.mask := by
        intro x hx
        refine ⟨?_, fun _ => testBit_of_cover _ _ hcov1 x hx⟩
        intro hmx
        rw [hx] at hmx
        cases hmx
      have hnf : ∀ c ∈ List.range OUTPUT_BUS_LENGTH,
          ¬ fatalConflict control_mask s2 s1.logic_value s1.mask c := by
        intro c _ hfat
        obtain ⟨hf1, hf2, hf3, hf4⟩ := hfat
        rw [htol c hf2 hf1 hf3] at hf4
        cases hf4
      obtain ⟨v2, m2, hfold, hk2⟩ := foldChan_ok control_mask s2
        (List.range OUTPUT_BUS_LENGTH) s1.logic_value s1.mask hkeeps0
        hfill0 hnf
      have hres : combineMerge control_mask s1.logic_value s1.mask pf s2 =
          .ok ⟨v2, m2, pf⟩ := by
        simp only [combineMerge]
        rw [if_neg hdisj, hfold]
        rfl
      refine ⟨⟨s1.time, v2, m2, pf⟩,
        combine_two_ok _ _ _ _ (by rw [hstep]; exact hres), ?_⟩
      intro ch hch
      exact (hk2 ch hch).2

/-- Witness for C8: two concrete Sets at tick 4 conflicting only on channel
1, which lies in the control mask 2: the combination succeeds and keeps the
first Set's bit, while the same Sets both tagged with blocks fail. -/
theorem combine_conflict_policy_witness :
    (∃ e, SetInstruction.combine 2
      [⟨4, 3, 3, some "a"⟩, ⟨4, 1, 3, some "b"⟩] = .error e) ∧
    (∃ r, SetInstruction.combine 2
      [⟨4, 3, 3, none⟩, ⟨4, 1, 3, none⟩] = .ok r ∧
      ∀ ch, (3 : Nat).testBit ch = true →
        r.logic_value.testBit ch = (3 : Nat).testBit ch) := by
  constructor
  · exact (combine_conflict_policy 2 ⟨4, 3, 3, some "a"⟩ ⟨4, 1, 3, some "b"⟩
      rfl).1 "a" "b" rfl rfl
  · refine (combine_conflict_policy 2 ⟨4, 3, 3, none⟩ ⟨4, 1, 3, none⟩
      rfl).2.2 (Or.inl rfl) (by decide) (by decide) ?_
    intro ch h1 h2 h3
    match ch with
    | 0 => exact absurd (by decide) h3
    | 1 => decide
    | (n + 2) =>
      have h1x : (3 : Nat).testBit (n + 2) = true := h1
      have hlt : (3 : Nat) < 2 ^ (n + 2) := by
        have hpow : (2 : Nat) ^ 2 ≤ 2 ^ (n + 2) :=
          Nat.pow_le_pow_right (by norm_num) (by omega)
        omega
      rw [Nat.testBit_lt_two_pow hlt] at h1x
      cases h1x

/-! ### Permutation lemmas for `compress` (C5) -/

theorem combine_singleton (cm : Nat) (s : SetData) :
    SetInstruction.combine cm [s] = .ok s := by
  simp only [SetInstruction.combine, List.foldlM_cons, List.foldlM_nil,
    combineStep_first, ok_bind]
  rfl

theorem setsOf_nil : setsOf [] = [] := rfl

theorem setsOf_cons_set (s : SetData) (rest : List LEntry) :
    setsOf (LEntry.set s :: rest) = s :: setsOf rest := rfl

theorem setsOf_cons_other (t : Int) (c : Nat) (rest : List LEntry) :
    setsOf (LEntry.other t c :: rest) = setsOf rest := rfl

/-- A list without Set entries is untouched by the non-Set filter. -/
theorem filter_not_isSet_of_no_sets (al : List LEntry)
    (h : setsOf al = []) : al.filter (fun e => !e.isSet) = al := by
  induction al with
  | nil => rfl
  | cons e rest ih =>
    cases e with
    | set s =>
      rw [setsOf_cons_set] at h
      cases h
    | other t c =>
      rw [setsOf_cons_other] at h
      rw [List.filter_cons_of_pos rfl, ih h]

/-- A list with exactly one Set entry is a permutation of that Set followed
by its non-Set entries. -/
theorem single_set_perm (al : List LEntry) (s : SetData)
    (h : setsOf al = [s]) :
    (LEntry.set s :: al.filter (fun e => !e.isSet)).Perm al := by
  induction al with
  | nil => cases h
  | cons e rest ih =>
    cases e with
    | set s0 =>
      rw [setsOf_cons_set] at h
      injection h with h1 h2
      subst h1
      rw [List.filter_cons_of_neg (by simp [LEntry.isSet]),
        filter_not_isSet_of_no_sets rest h2]
    | other t c =>
      rw [setsOf_cons_other] at h
      have hstep := ih h
      rw [List.filter_cons_of_pos rfl]
      exact (List.Perm.swap (LEntry.other t c) (LEntry.set s)
        (rest.filter (fun e => !e.isSet))).trans
        (hstep.cons (LEntry.other t c))

/-- Splitting a list by each of a duplicate-free set of keys covering all
its elements yields a permutation of the list. -/
theorem flatMap_filter_perm (ts : List Int) :
    ∀ (l : List LEntry), ts.Nodup → (∀ e ∈ l, e.time ∈ ts) →
    (ts.flatMap fun t => l.filter fun e => e.time == t).Perm l := by
  induction ts with
  | nil =>
    intro l _ hcov
    cases l with
    | nil => simp
    | cons e es => exact absurd (hcov e (List.mem_cons_self e es)) (by simp)
  | cons t ts ih =>
    intro l hnd hcov
    rw [List.flatMap_cons]
    obtain ⟨hnt, hnd2⟩ := List.nodup_cons.mp hnd
    have hsub : ∀ s ∈ ts, (l.filter fun e => e.time == s) =
        ((l.filter fun e => !(e.time == t)).filter fun e => e.time == s) := by
      intro s hs
      rw [List.filter_filter]
      refine (List.filter_congr ?_).symm
      intro e _
      cases he : (e.time == s) with
      | false => simp
      | true =>
        have hes : e.time = s := by simpa using he
        have hst : (e.time == t) = false := by
          simp only [beq_eq_false_iff_ne, ne_eq]
          intro het
          have hst2 : s = t := hes.symm.trans het
          exact hnt (hst2 ▸ hs)
        simp [hst]
    rw [List.flatMap_congr hsub]
    have htail :
        (ts.flatMap fun s =>
          (l.filter fun e => !(e.time == t)).filter fun e =>
            e.time == s).Perm (l.filter fun e => !(e.time == t)) := by
      refine ih _ hnd2 ?_
      intro e he
      have hel : e ∈ l := List.mem_of_mem_filter he
      have hnet : (e.time == t) = false := by
        have hf := (List.mem_filter.mp he).2
        simpa using hf
      rcases List.mem_cons.mp (hcov e hel) with h | h
      · rw [beq_eq_false_iff_ne] at hnet
        exact absurd h hnet
      · exact h
    exact (htail.append_left _).trans
      (List.filter_append_perm (fun e => e.time == t) l)

/-- `setsOf` commutes with filtering by time (a Set entry's time is its
payload's time). -/
theorem setsOf_filter_time (l : List LEntry) (t : Int) :
    setsOf (l.filter fun e => e.time == t) =
      (setsOf l).filter fun x => x.time == t := by
  induction l with
  | nil => rfl
  | cons e rest ih =>
    cases e with
    | set s =>
      cases hs : (s.time == t) with
      | false =>
        rw [List.filter_cons_of_neg (by simpa [LEntry.time] using hs),
          setsOf_cons_set, List.filter_cons_of_neg (by simpa using hs), ih]
      | true =>
        rw [List.filter_cons_of_pos (by simpa [LEntry.time] using hs),
          setsOf_cons_set, setsOf_cons_set,
          List.filter_cons_of_pos (by simpa using hs), ih]
    | other u c =>
      cases hs : ((u : Int) == t) with
      | false =>
        rw [List.filter_cons_of_neg (by simpa [LEntry.time] using hs),
          setsOf_cons_other, ih]
      | true =>
        rw [List.filter_cons_of_pos (by simpa [LEntry.time] using hs),
          setsOf_cons_other, setsOf_cons_other, ih]

/-- Pairwise-distinct times leave at most one Set per tick. -/
theorem length_le_one_of_pairwise_ne (s : List SetData) (t : Int)
    (hp : s.Pairwise fun a b => a.time ≠ b.time) :
    (s.filter fun x => x.time == t).length ≤ 1 := by
  have hp2 : (s.filter fun x => x.time == t).Pairwise
      (fun a b => a.time ≠ b.time) := hp.filter _
  cases hf : s.filter (fun x => x.time == t) with
  | nil => simp
  | cons x rest =>
    cases rest with
    | nil => simp
    | cons y rest2 =>
      rw [hf] at hp2
      have hxy : x.time ≠ y.time :=
        (List.pairwise_cons.mp hp2).1 y (List.mem_cons_self _ _)
      have hx : x ∈ s.filter (fun x => x.time == t) := by
        rw [hf]
        exact List.mem_cons_self _ _
      have hy : y ∈ s.filter (fun x => x.time == t) := by
        rw [hf]
        simp
      have hxt : x.time = t := by simpa using (List.mem_filter.mp hx).2
      have hyt : y.time = t := by simpa using (List.mem_filter.mp hy).2
      exact absurd (hxt.trans hyt.symm) hxy

/-- The per-time body of `compress` succeeds on a tick holding at most one
Set and returns a permutation of the entries at that tick. -/
theorem compressGroup_perm (cm : Nat) (l : List LEntry) (t : Int)
    (hone : ((setsOf l).filter fun x => x.time == t).length ≤ 1) :
    ∃ g, compressGroup cm l t = .ok g ∧
      g.Perm (l.filter fun e => e.time == t) := by
  have hsets := setsOf_filter_time l t
  cases hs : setsOf (l.filter fun e => e.time == t) with
  | nil =>
    refine ⟨(l.filter fun e => e.time == t), ?_, List.Perm.refl _⟩
    simp only [compressGroup]
    rw [hs, filter_not_isSet_of_no_sets _ hs]
    rfl
  | cons s0 rest =>
    have hrest : rest = [] := by
      rw [hsets] at hs
      have := hone
      rw [hs] at this
      cases rest with
      | nil => rfl
      | cons a b => simp at this
    subst hrest
    refine ⟨LEntry.set s0 :: (l.filter fun e => e.time == t).filter
      (fun e => !e.isSet), ?_, single_set_perm _ _ hs⟩
    simp only [compressGroup]
    rw [hs, combine_singleton]
    rfl

/-- Mapping the per-time body over duplicate-free ticks succeeds and its
concatenation is a permutation of the per-tick split. -/
theorem mapM_group_perm (cm : Nat) (l : List LEntry) :
    ∀ ts : List Int,
    (∀ t ∈ ts, ((setsOf l).filter fun x => x.time == t).length ≤ 1) →
    ∃ gs, ts.mapM (compressGroup cm l) = .ok gs ∧
      gs.flatten.Perm (ts.flatMap fun t => l.filter fun e => e.time == t) := by
  intro ts
  induction ts with
  | nil =>
    intro _
    exact ⟨[], rfl, by simp⟩
  | cons t ts ih =>
    intro hts
    obtain ⟨g, hg, hgp⟩ :=
      compressGroup_perm cm l t (hts t (List.mem_cons_self _ _))
    obtain ⟨gs, hgs, hgsp⟩ := ih (fun u hu => hts u (List.mem_cons_of_mem _ hu))
    refine ⟨g :: gs, ?_, ?_⟩
    · rw [List.mapM_cons, hg, hgs]
      rfl
    · rw [List.flatten_cons, List.flatMap_cons]
      exact hgp.append hgsp

/-- C5: running `InstructionList.compress` on a list that is already
compressed — at most one Set instruction per tick (pairwise-distinct Set
times), hence no mergeable conflicts — succeeds and changes neither the
number of instructions in the list nor the tick assigned to any
instruction. -/
theorem compress_idempotent (cm : Nat) (l0 : List LEntry)
    (hone : (setsOf l0).Pairwise fun a b => a.time ≠ b.time) :
    ∃ l', InstructionList.compress cm l0 = .ok l' ∧
      l'.length = l0.length ∧
      (l'.map LEntry.time).Perm (l0.map LEntry.time) := by
  have hperm : (sortEntries l0).Perm l0 := List.mergeSort_perm l0 entryLE
  have hsetsp : (setsOf (sortEntries l0)).Perm (setsOf l0) := hperm.filterMap _
  have honel : (setsOf (sortEntries l0)).Pairwise
      (fun a b => a.time ≠ b.time) :=
    (hsetsp.pairwise_iff (fun hab he => hab he.symm)).mpr hone
  obtain ⟨gs, hgs, hgsp⟩ := mapM_group_perm cm (sortEntries l0)
    (((sortEntries l0).map LEntry.time).dedup)
    (fun t _ => length_le_one_of_pairwise_ne _ t honel)
  have hflat : gs.flatten.Perm (sortEntries l0) := by
    refine hgsp.trans (flatMap_filter_perm _ _ (List.nodup_dedup _) ?_)
    intro e he
    exact List.mem_dedup.mpr (List.mem_map.mpr ⟨e, he, rfl⟩)
  have hfinal : (sortEntries gs.flatten).Perm l0 :=
    ((List.mergeSort_perm _ entryLE).trans hflat).trans hperm
  refine ⟨sortEntries gs.flatten, ?_, hfinal.length_eq, hfinal.map _⟩
  simp only [InstructionList.compress]
  rw [hgs]
  rfl

/-- Witness for C5: a three-entry list with Sets at ticks 2 and 5 and a
Wait at tick 0 is passed through `compress` with unchanged length and tick
multiset. -/
theorem compress_idempotent_witness :
    ∃ l', InstructionList.compress 6
        [LEntry.set ⟨2, 1, 1, none⟩, LEntry.other 0 0,
          LEntry.set ⟨5, 2, 2, some "b"⟩] = .ok l' ∧
      l'.length = 3 ∧
      (l'.map LEntry.time).Perm [2, 0, 5] :=
  compress_idempotent 6
    [LEntry.set ⟨2, 1, 1, none⟩, LEntry.other 0 0,
      LEntry.set ⟨5, 2, 2, some "b"⟩]
    (by simp [setsOf])

/-! ### `assign_addresses` (C9) -/

/-- The duplicate/order scan of `assign_addresses`: it succeeds exactly when
the walked times, prefixed with the running `current_time`, are strictly
increasing; on success it returns the entries in order, paired with the
consecutive exposed addresses starting at `i + 1`. -/
theorem assignLoop_spec (es : List LEntry) :
    ∀ (current : Int) (i : Nat),
    ((∃ r, assignLoop current i es = .ok r) ↔
      List.Chain' (· < ·) (current :: es.map LEntry.time)) ∧
    (∀ r, assignLoop current i es = .ok r →
      r.map Prod.fst = es ∧ r.map Prod.snd = List.range' (i + 1) es.length) := by
  induction es with
  | nil =>
    intro current i
    refine ⟨⟨fun _ => by simp, fun _ => ⟨[], rfl⟩⟩, ?_⟩
    intro r hr
    injection hr with h
    subst h
    exact ⟨rfl, rfl⟩
  | cons e rest ih =>
    intro current i
    by_cases h1 : e.time = current
    · constructor
      · constructor
        · intro ⟨r, hr⟩
          rw [assignLoop, if_pos h1] at hr
          cases hr
        · intro hchain
          rw [List.map_cons, List.chain'_cons] at hchain
          omega
      · intro r hr
        rw [assignLoop, if_pos h1] at hr
        cases hr
    · by_cases h2 : e.time < current
      · constructor
        · constructor
          · intro ⟨r, hr⟩
            rw [assignLoop, if_neg h1, if_pos h2] at hr
            cases hr
          · intro hchain
            rw [List.map_cons, List.chain'_cons] at hchain
            omega
        · intro r hr
          rw [assignLoop, if_neg h1, if_pos h2] at hr
          cases hr
      · have hlt : current < e.time := by omega
        obtain ⟨ihiff, ihok⟩ := ih e.time (i + 1)
        constructor
        · constructor
          · intro ⟨r, hr⟩
            rw [assignLoop, if_neg h1, if_neg h2] at hr
            rcases hrec : assignLoop e.time (i + 1) rest with err | out
            · rw [hrec] at hr
              cases hr
            · rw [List.map_cons, List.chain'_cons]
              exact ⟨hlt, ihiff.mp ⟨out, hrec⟩⟩
          · intro hchain
            rw [List.map_cons, List.chain'_cons] at hchain
            obtain ⟨out, hout⟩ := ihiff.mpr hchain.2
            refine ⟨(e, i + RAM_LOWEST_ADDRESS) :: out, ?_⟩
            rw [assignLoop, if_neg h1, if_neg h2, hout]
            rfl
        · intro r hr
          rw [assignLoop, if_neg h1, if_neg h2] at hr
          rcases hrec : assignLoop e.time (i + 1) rest with err | out
          · rw [hrec] at hr
            cases hr
          · rw [hrec] at hr
            have hr2 : ((e, i + RAM_LOWEST_ADDRESS) :: out) = r := by
              injection hr
            obtain ⟨hf, hsnd⟩ := ihok out hrec
            constructor
            · rw [← hr2, List.map_cons, hf]
            · rw [← hr2, List.map_cons, hsnd, List.length_cons,
                List.range'_succ]
              rfl

/-- `entryLE` orders times nondecreasingly along the sorted list. -/
theorem sortEntries_time_le (l : List LEntry) :
    ((sortEntries l).map LEntry.time).Pairwise (· ≤ ·) := by
  have hs := @List.sorted_mergeSort LEntry entryLE
    (fun a b c hab hbc => by
      simp only [entryLE, Bool.or_eq_true, Bool.and_eq_true,
        decide_eq_true_iff] at hab hbc ⊢
      omega)
    (fun a b => by
      simp only [entryLE, Bool.or_eq_true, Bool.and_eq_true,
        decide_eq_true_iff]
      omega)
    l
  rw [List.pairwise_map]
  refine hs.imp ?_
  intro a b hab
  simp only [entryLE, Bool.or_eq_true, Bool.and_eq_true,
    decide_eq_true_iff] at hab
  omega

/-- C9 (amended): `assign_addresses` sorts the list first, so it succeeds
exactly when no two instructions share a tick — an out-of-order (but
duplicate-free) tick alone is sorted away and raises no error — and on
success the entries, taken in time order, expose the strictly increasing
addresses `1..N` (the i-th instruction of the time-sorted list, counting
from 1, exposes address i) with ticks strictly increasing along
addresses. -/
theorem assign_addresses_amended (l : List LEntry)
    (hpos : ∀ e ∈ l, 0 ≤ e.time) :
    ((∃ r, assign_addresses l = .ok r) ↔ (l.map LEntry.time).Nodup) ∧
    (∀ r, assign_addresses l = .ok r →
      r.map Prod.snd = List.range' 1 l.length ∧
      List.Chain' (· < ·) (r.map fun p => p.1.time) ∧
      (r.map Prod.fst).Perm l) := by
  have hperm : (sortEntries l).Perm l := List.mergeSort_perm l entryLE
  have hmapperm : ((sortEntries l).map LEntry.time).Perm (l.map LEntry.time) :=
    hperm.map _
  have hle := sortEntries_time_le l
  obtain ⟨hiff, hok⟩ := assignLoop_spec (sortEntries l) (-1) 0
  have hchain_iff : List.Chain' (· < ·)
      ((-1 : Int) :: (sortEntries l).map LEntry.time) ↔
      (l.map LEntry.time).Nodup := by
    rw [List.chain'_cons']
    constructor
    · intro ⟨_, hchain⟩
      refine (hmapperm.nodup_iff).mp ?_
      exact (List.chain'_iff_pairwise.mp hchain).imp ne_of_lt
    · intro hnd
      have hnd2 : ((sortEntries l).map LEntry.time).Nodup :=
        (hmapperm.nodup_iff).mpr hnd
      refine ⟨?_, ?_⟩
      · intro y hy
        have hy2 : y ∈ (sortEntries l).map LEntry.time :=
          List.mem_of_mem_head? hy
        obtain ⟨e, he, hev⟩ := List.mem_map.mp hy2
        have := hpos e (hperm.subset he)
        omega
      · rw [List.chain'_iff_pairwise]
        exact (hle.and hnd2).imp (fun hab => lt_of_le_of_ne hab.1 hab.2)
  refine ⟨hiff.trans hchain_iff, ?_⟩
  intro r hr
  obtain ⟨hf, hsnd⟩ := hok r hr
  have hchain := hiff.mp ⟨r, hr⟩
  refine ⟨?_, ?_, ?_⟩
  · rw [hsnd, hperm.length_eq]
  · have : (r.map fun p => p.1.time) = (sortEntries l).map LEntry.time := by
      rw [show (fun p : LEntry × Nat => p.1.time) =
        (LEntry.time ∘ Prod.fst) from rfl, ← List.map_map, hf]
    rw [this]
    exact (List.chain'_cons'.mp hchain).2
  · rw [hf]
    exact hperm

/-- Witness for C9 (amended): a duplicate-free two-entry list is assigned
addresses successfully. -/
theorem assign_addresses_amended_witness :
    ∃ r, assign_addresses [LEntry.other 3 0, LEntry.other 1 0] = .ok r :=
  (assign_addresses_amended [LEntry.other 3 0, LEntry.other 1 0]
    (by decide)).1.mpr (by decide)

unseal List.merge List.mergeSort in
/-- Counterexample to C9 as stated: an out-of-order but duplicate-free list
does not raise — `assign_addresses` sorts it and succeeds, assigning
addresses 1 and 2 in time order. -/
theorem assign_addresses_out_of_order_ok :
    assign_addresses [LEntry.other 2 0, LEntry.other 1 0] =
      .ok [(LEntry.other 1 0, 1), (LEntry.other 2 0, 2)] := rfl

/-! ## src/objects/jumps.py -/

/-- The resolved destination object of a `Condition`.  A `Destination` is a
`Reference` and compares structurally on its `(type, value)` pair
(`Reference.__eq__` in timePoints.py); `Pass` and `Terminator` define no
`__eq__` and compare by Python object identity, modelled here by an
identity tag (distinct objects carry distinct tags).  A `Destination` never
equals a `Pass` or a `Terminator`: the `type` comparison fails first, so
`Reference.__eq__` short-circuits to `False`. -/
inductive DestObj where
  | destination (refType : String) (value : String)
  | passObj (id : Nat)
  | terminator (id : Nat)
  deriving DecidableEq, Repr

/-- `ConditionType`: the four kinds of `Condition`. -/
inductive ConditionType where
  | value
  | threshold
  | range
  | else_
  deriving DecidableEq, Repr

/-- A `Condition`: its type, the `_value` / `_threshold` / `_range` payload
(each defaulting to zero as in `Condition.__init__`), and its resolved
destination object. -/
structure Condition where
  type : ConditionType
  value : Nat
  threshold : Nat
  rangeVal : Nat × Nat
  destination : DestObj
  deriving DecidableEq, Repr

/-- The `Condition.range` property: the count interval `[lower, upper)` on
which the condition is true — `(value, value + 1)` for a value condition,
`(threshold, 2^16)` for a threshold condition, the stored pair for a range
condition and `(0, 2^16)` for an `else` condition. -/
def Condition.range (c : Condition) : Nat × Nat :=
  match c.type with
  | .value => (c.value, c.value + 1)
  | .threshold => (c.threshold, 2 ^ 16)
  | .range => c.rangeVal
  | .else_ => (0, 2 ^ 16)

/-- A `Jump`: its name and ordered condition list. -/
structure Jump where
  name : String
  conditions : List Condition
  deriving DecidableEq, Repr

/-- Insert-or-replace into an association list, keeping the original
position of an existing key: this is both the behaviour of a Python dict
used only through lookups and of an `OrderedDict` (which keeps a re-written
key at its first position). -/
def dictInsert {α β : Type} [DecidableEq α] (k : α) (v : β) :
    List (α × β) → List (α × β)
  | [] => [(k, v)]
  | (k0, v0) :: rest =>
      if k0 = k then (k0, v) :: rest else (k0, v0) :: dictInsert k v rest

/-- Dictionary lookup in an association list. -/
def dictLookup {α β : Type} [DecidableEq α] (k : α) :
    List (α × β) → Option β
  | [] => none
  | (k0, v0) :: rest => if k0 = k then some v0 else dictLookup k rest

/-- Descending lexicographic comparison on range pairs, as used by
`sorted(defined_ranges.keys(), reverse=True)`. -/
def lexGE (a b : Nat × Nat) : Bool :=
  a.1 > b.1 || (a.1 = b.1 && a.2 ≥ b.2)

/-- Insertion into a descending-sorted list of range entries. -/
def insertDescEntry (x : (Nat × Nat) × Condition) :
    List ((Nat × Nat) × Condition) → List ((Nat × Nat) × Condition)
  | [] => [x]
  | y :: ys => if lexGE x.1 y.1 then x :: y :: ys else y :: insertDescEntry x ys

/-- `sorted(defined_ranges.keys(), reverse=True)`, carried out on the
association entries (the keys are unique, so iterating the sorted entries
is the same as iterating the sorted keys and indexing the dict). -/
def sortDescEntries (l : List ((Nat × Nat) × Condition)) :
    List ((Nat × Nat) × Condition) :=
  l.foldr insertDescEntry []

/-- `Jump._enforce_else`: when no `else` condition is present, append a
default passing condition (type `else`, destination a fresh `Pass` object,
modelled with identity tag 0) with a warning. -/
def Jump.enforce_else (j : Jump) : List Condition :=
  if j.conditions.any (fun c => c.type == ConditionType.else_) then
    j.conditions
  else
    j.conditions ++ [⟨ConditionType.else_, 0, 0, (0, 0), DestObj.passObj 0⟩]

/-- The first phase of `Jump.threshold_conditions`: partition the (else-
enforced) conditions into the `defined_ranges` dict, keyed by their count
range, and the last `else` condition seen. -/
def gatherRanges (conds : List Condition) :
    List ((Nat × Nat) × Condition) × Option Condition :=
  conds.foldl
    (fun (acc : List ((Nat × Nat) × Condition) × Option Condition) c =>
      if c.type = ConditionType.else_ then (acc.1, some c)
      else (dictInsert c.range c acc.1, acc.2))
    ([], none)

/-- The threshold-building loop of `Jump.threshold_conditions`: walk the
ranges in descending order, carrying `current_threshold` (initialised to
`2^16`) and the `OrderedDict` under construction; a range whose upper bound
is below the running threshold first inserts an `else` jump at the upper
bound; equal bounds insert only the range's own jump at the lower bound;
a larger upper bound is an overlap error. -/
def thresholdLoop (els : Condition) :
    List ((Nat × Nat) × Condition) → List (Nat × Condition) → Nat →
    Except String (List (Nat × Condition) × Nat)
  | [], tc, ct => .ok (tc, ct)
  | ((lower, upper), cond) :: rest, tc, ct =>
      if upper < ct then
        thresholdLoop els rest
          (dictInsert lower cond (dictInsert upper els tc)) lower
      else if upper = ct then
        thresholdLoop els rest (dictInsert lower cond tc) lower
      else
        .error "Overlap in count ranges for Conditions."

/-- `Jump.threshold_conditions`: convert all conditions into an ordered map
from thresholds (in insertion order, which is descending) to conditions;
after the loop, a positive running threshold inserts the `else` condition
at threshold 0. -/
def Jump.threshold_conditions (j : Jump) :
    Except String (List (Nat × Condition)) := do
  let conds := j.enforce_else
  let (defined_ranges, els?) := gatherRanges conds
  match els? with
  | none => .error ("else Condition not found, even though it should be " ++
      "added automatically when missing.")
  | some els => do
      let (tc, ct) ← thresholdLoop els (sortDescEntries defined_ranges) []
        (2 ^ 16)
      if ct > 0 then
        .ok (dictInsert 0 els tc)
      else
        .ok tc

/-- The loop of `Jump.compressed_conditions`: walk the threshold conditions
in order, carrying `current_threshold` (initialised to 0) and the
`compressed_conditions` dict; a condition whose destination equals the
destination stored at the running threshold is skipped, any other writes
the running destination at the running threshold and moves the running
threshold.  The state also carries the last-visited condition, used by the
Python `for … else` epilogue. -/
def compressedLoop (tc : List (Nat × Condition)) :
    List (Nat × Condition) → List (Nat × DestObj) → Nat →
    Option Condition →
    Except String (List (Nat × DestObj) × Nat × Option Condition)
  | [], compressed, ct, last => .ok (compressed, ct, last)
  | (threshold, condition) :: rest, compressed, ct, _ =>
      match dictLookup ct tc with
      | none => .error "KeyError: current_threshold"
      | some cur =>
          if condition.destination = cur.destination then
            compressedLoop tc rest compressed ct (some condition)
          else
            compressedLoop tc rest
              (dictInsert ct cur.destination compressed) threshold
              (some condition)

/-- `Jump.compressed_conditions`: run the loop from threshold 0 over the
threshold conditions and apply the `for … else` epilogue: when the final
running threshold is not yet a key of the compressed dict, store the last
condition's destination there.  (With an empty threshold map the Python
epilogue would hit an unbound loop variable; threshold maps are never
empty.) -/
def Jump.compressed_conditions (j : Jump) :
    Except String (List (Nat × DestObj)) := do
  let tc ← j.threshold_conditions
  let (compressed, ct, last) ← compressedLoop tc tc [] 0 none
  match last with
  | none => .error "NameError: condition referenced before assignment"
  | some c =>
      match dictLookup ct compressed with
      | some _ => .ok compressed
      | none => .ok (dictInsert ct c.destination compressed)

/-! ### Threshold-chain evaluation (C1) -/

/-- Insertion into a descending-sorted threshold chain. -/
def insertDescThreshold (x : Nat × DestObj) :
    List (Nat × DestObj) → List (Nat × DestObj)
  | [] => [x]
  | y :: ys =>
      if x.1 ≥ y.1 then x :: y :: ys else y :: insertDescThreshold x ys

/-- Arrange a compressed-condition map by descending threshold, the order
in which the hardware chain is evaluated. -/
def sortDescChain (l : List (Nat × DestObj)) : List (Nat × DestObj) :=
  l.foldr insertDescThreshold []

/-- Evaluate a descending threshold chain on a count: test
`count ≥ threshold` in order, jumping to the first succeeding entry's
destination and falling through otherwise. -/
def evalChain : List (Nat × DestObj) → Nat → Option DestObj
  | [], _ => none
  | (th, d) :: rest, count =>
      if count ≥ th then some d else evalChain rest count

/-- The C1 example jump: conditions over the disjoint ranges `[0, 10)`
mapping to `A` and `[10, 100)` mapping to `B`, plus an `else` condition
(covering `[100, 65536)`) mapping to `E`. -/
def rangeJump (A B E : DestObj) : Jump :=
  ⟨"example",
    [⟨ConditionType.range, 0, 0, (0, 10), A⟩,
      ⟨ConditionType.range, 0, 0, (10, 100), B⟩,
      ⟨ConditionType.else_, 0, 0, (0, 0), E⟩]⟩

/-- C1 (amended): for the example jump with pairwise-distinct destinations,
the chain produced by `threshold_conditions` and `compressed_conditions`,
evaluated by testing `count ≥ threshold` in descending threshold order and
falling through on failure, selects `A` for counts 0–9, `B` for 10–99 and
the else destination `E` for counts of 100 and above. -/
theorem threshold_chain_correct (A B E : DestObj)
    (hAB : A ≠ B) (hBE : B ≠ E) (hAE : A ≠ E) :
    (rangeJump A B E).compressed_conditions =
      .ok [(0, A), (100, E), (10, B)] ∧
    ∀ count : Nat,
      evalChain (sortDescChain [(0, A), (100, E), (10, B)]) count =
        some (if count < 10 then A else if count < 100 then B else E) := by
  constructor
  · have htc : (rangeJump A B E).threshold_conditions =
        .ok [(100, ⟨ConditionType.else_, 0, 0, (0, 0), E⟩),
          (10, ⟨ConditionType.range, 0, 0, (10, 100), B⟩),
          (0, ⟨ConditionType.range, 0, 0, (0, 10), A⟩)] := rfl
    have hEA : (E = A) = False := eq_false (fun h => hAE h.symm)
    have hBEf : (B = E) = False := eq_false hBE
    have hABf : (A = B) = False := eq_false hAB
    simp [Jump.compressed_conditions, htc, ok_bind, compressedLoop,
      dictLookup, dictInsert, hEA, hBEf, hABf]
  · intro count
    rw [show sortDescChain [(0, A), (100, E), (10, B)] =
      [(100, E), (10, B), (0, A)] from rfl]
    simp only [evalChain]
    split_ifs with h1 h2 h3 h4 h5 <;> first | rfl | omega

/-- Witness for C1 (amended): the chain for three concrete distinct
destinations. -/
theorem threshold_chain_correct_witness :
    (rangeJump (DestObj.destination "start" "A")
        (DestObj.destination "start" "B")
        (DestObj.destination "end" "E")).compressed_conditions =
      .ok [(0, DestObj.destination "start" "A"),
        (100, DestObj.destination "end" "E"),
        (10, DestObj.destination "start" "B")] ∧
    ∀ count : Nat,
      evalChain (sortDescChain [(0, DestObj.destination "start" "A"),
        (100, DestObj.destination "end" "E"),
        (10, DestObj.destination "start" "B")]) count =
        some (if count < 10 then DestObj.destination "start" "A"
          else if count < 100 then DestObj.destination "start" "B"
          else DestObj.destination "end" "E") :=
  threshold_chain_correct _ _ _ (by decide) (by decide) (by decide)

/-- Counterexample to C1 as stated: when the `[10, 100)` range and the
`else` condition share one destination object (equal `Reference`s), the
compression collapses them but keeps the wrong threshold (100 instead of
10), so the chain sends count 50 to `A` even though the conditions map
`[10, 100)` to `B`. -/
theorem threshold_chain_equal_dest_cex :
    (rangeJump (DestObj.destination "start" "A")
        (DestObj.destination "start" "B")
        (DestObj.destination "start" "B")).compressed_conditions =
      .ok [(0, DestObj.destination "start" "A"),
        (100, DestObj.destination "start" "B")] ∧
    evalChain (sortDescChain [(0, DestObj.destination "start" "A"),
        (100, DestObj.destination "start" "B")]) 50 =
      some (DestObj.destination "start" "A") :=
  ⟨rfl, rfl⟩

/-! ## src/compiler/compiler.py: `Compiler._process_jump` (C6) -/

/-- `Compiler._MAX_JUMP_CONDITIONS = 10`. -/
def MAX_JUMP_CONDITIONS : Nat := 10

/-- The jump instruction placed at position `i` of a jump's condition
chain (scheduled at `jump_time - i`): a goto to the passing
control-register write, an `EndInstruction.within_jump`, an always-jump
goto to a destination (threshold 0), or a conditional threshold jump.
(The control-register write/reset Sets created by `_write_control_value`
and the destination-side instruction triples created by
`_destination_instructions` accompany these at other times; they do not
participate in the condition count or the capacity check modelled here.) -/
inductive ChainTag where
  | passGoto
  | endWithin
  | gotoDest (d : DestObj)
  | condDest (d : DestObj) (threshold channel : Nat)
  deriving DecidableEq, Repr

/-- Insertion into an ascending-sorted threshold list
(`sorted(jump_destinations.keys())`). -/
def insertAscNat (x : Nat) : List Nat → List Nat
  | [] => [x]
  | y :: ys => if x ≤ y then x :: y :: ys else y :: insertAscNat x ys

/-- Ascending sort of the thresholds. -/
def sortAscNat (l : List Nat) : List Nat :=
  l.foldr insertAscNat []

/-- The `for i, threshold in enumerate(ascending_thresholds)` loop of
`_process_jump`: one chain instruction per threshold, at time
`jump_time - i`; a `Pass` destination becomes a goto to the passing
control write, a `Terminator` an End within the jump, a `Destination` an
always-jump goto at threshold 0 and a conditional threshold jump
otherwise. -/
def buildChain (jump_time : Int) (channel_id : Nat)
    (jump_destinations : List (Nat × DestObj)) :
    List Nat → Nat → Except String (List (Int × ChainTag))
  | [], _ => .ok []
  | threshold :: rest, i =>
      match dictLookup threshold jump_destinations with
      | none => .error "KeyError: threshold"
      | some d => do
          let tail ← buildChain jump_time channel_id jump_destinations rest
            (i + 1)
          match d with
          | .passObj _ => .ok ((jump_time - i, ChainTag.passGoto) :: tail)
          | .terminator _ => .ok ((jump_time - i, ChainTag.endWithin) :: tail)
          | .destination r v =>
              if threshold = 0 then
                .ok ((jump_time - i,
                  ChainTag.gotoDest (.destination r v)) :: tail)
              else
                .ok ((jump_time - i, ChainTag.condDest (.destination r v)
                  threshold channel_id) :: tail)

/-- `Compiler._process_jump`: dispatch on the number of compressed
conditions.  A single condition is a bare goto (or skipped entirely when
always passing); between 2 and `_MAX_JUMP_CONDITIONS` conditions build the
chain over the ascending thresholds, dropping threshold 0 when it is
passing; strictly more than `_MAX_JUMP_CONDITIONS` conditions raise the
capacity error naming the jump; zero conditions raise. -/
def processJump (jump_name : String) (jump_time : Int) (channel_id : Nat)
    (jump_destinations : List (Nat × DestObj)) :
    Except String (List (Int × ChainTag)) :=
  let number_of_conditions := jump_destinations.length
  if number_of_conditions = 1 then
    match dictLookup 0 jump_destinations with
    | none => .error ("Invalid compressedConditions for jump " ++
        jump_name ++ ": No destination for threshold 0.")
    | some (DestObj.passObj _) => .ok []
    | some d => .ok [(jump_time, ChainTag.gotoDest d)]
  else if MAX_JUMP_CONDITIONS ≥ number_of_conditions ∧
      number_of_conditions > 1 then
    let ascending0 := sortAscNat (jump_destinations.map Prod.fst)
    let ascending :=
      match dictLookup 0 jump_destinations with
      | some (DestObj.passObj _) => ascending0.erase 0
      | _ => ascending0
    buildChain jump_time channel_id jump_destinations ascending 0
  else if number_of_conditions > MAX_JUMP_CONDITIONS then
    .error ("Jump " ++ jump_name ++ " contains " ++
      toString number_of_conditions ++
      " conditions, which is more than the maximum of " ++
      toString MAX_JUMP_CONDITIONS ++ " conditions set through " ++
      "_MAX_JUMP_CONDITIONS. This value can be overridden by the user, " ++
      "but might lead to invalid IPU instructions.")
  else
    .error ("Jump " ++ jump_name ++ " without any condition.")

/-- C6: a jump whose compressed conditions hold strictly more than
`_MAX_JUMP_CONDITIONS` (default 10) entries fails compilation with the
capacity error naming the jump; no chain is emitted, so the condition
chain is never silently truncated to the cap. -/
theorem process_jump_capacity (jump_name : String) (jump_time : Int)
    (channel_id : Nat) (dests : List (Nat × DestObj))
    (h : dests.length > MAX_JUMP_CONDITIONS) :
    processJump jump_name jump_time channel_id dests =
      .error ("Jump " ++ jump_name ++ " contains " ++
        toString dests.length ++
        " conditions, which is more than the maximum of " ++
        toString MAX_JUMP_CONDITIONS ++ " conditions set through " ++
        "_MAX_JUMP_CONDITIONS. This value can be overridden by the user, " ++
        "but might lead to invalid IPU instructions.") := by
  have h10 : MAX_JUMP_CONDITIONS = 10 := rfl
  rw [h10] at h
  simp only [processJump, MAX_JUMP_CONDITIONS]
  rw [if_neg (by omega), if_neg (by omega), if_pos (by omega)]

/-- Witness for C6: a jump with 11 distinct non-passing destinations (the
compressed map has 11 entries at thresholds 0, 10, …, 100) fails with
the capacity error naming the jump. -/
theorem process_jump_capacity_witness :
    processJump "example" 500 2
        ((List.range 11).map fun i =>
          (10 * i, DestObj.destination "start" (toString i))) =
      .error ("Jump " ++ "example" ++ " contains " ++
        toString ((List.range 11).map fun i =>
          (10 * i, DestObj.destination "start" (toString i))).length ++
        " conditions, which is more than the maximum of " ++
        toString MAX_JUMP_CONDITIONS ++ " conditions set through " ++
        "_MAX_JUMP_CONDITIONS. This value can be overridden by the user, " ++
        "but might lead to invalid IPU instructions.") :=
  process_jump_capacity "example" 500 2
    ((List.range 11).map fun i =>
      (10 * i, DestObj.destination "start" (toString i)))
    (by decide)

/-! ## src/compiler/compiler.py: `_add_jumps` / `_order_jump` (C7) -/

/-- A jump as seen by the collision-resolution stage: its name, its
un-quantized sequence time (`jump.get_time(control_values)`, modelled in
fixed-point units — only the order of sequence times matters to
`_order_jump`) and its quantized FPGA tick (`_fpga_time` of the sequence
time, a fixed value per jump and variant). -/
structure SJump where
  name : String
  seqTime : Int
  tick : Int
  deriving DecidableEq, Repr

/-- `Compiler._order_jump`, with the instance state `_jump_times` passed
explicitly (a dict from tick to `(jump, channel_id)`).  `fpga_time` is
recomputed from the `jump` argument's own time, as in the source.  The
jump with the later sequence time is written at `fpga_time`; exactly equal
sequence times raise the internal-consistency error; when `fpga_time - 1`
is already occupied the source recurses with the shifted jump and the
occupant of `fpga_time - 1`, otherwise the shifted jump is stored at
`fpga_time - 1`.  The Python recursion is unbounded; `fuel` bounds the
model (every run below exhausts only a few levels). -/
def orderJump : Nat → List (Int × (SJump × Nat)) → SJump → Nat →
    SJump → Nat → Except String (List (Int × (SJump × Nat)))
  | 0, _, _, _, _, _ => .error "recursion limit exceeded in _order_jump"
  | fuel + 1, times, jump, jump_id, other_jump, other_id =>
      let fpga_time := jump.tick
      if jump.seqTime > other_jump.seqTime then
        let times2 := dictInsert fpga_time (jump, jump_id) times
        match dictLookup (fpga_time - 1) times2 with
        | some (oj, oid) => orderJump fuel times2 other_jump other_id oj oid
        | none =>
            .ok (dictInsert (fpga_time - 1) (other_jump, other_id) times2)
      else if jump.seqTime < other_jump.seqTime then
        let times2 := dictInsert fpga_time (other_jump, other_id) times
        match dictLookup (fpga_time - 1) times2 with
        | some (oj, oid) => orderJump fuel times2 jump jump_id oj oid
        | none => .ok (dictInsert (fpga_time - 1) (jump, jump_id) times2)
      else
        .error ("Sequence contains two jumps which are scheduled at the " ++
          "same sequence time. This should be caught during Sequence " ++
          "verification.")

/-- The collision-handling part of `Compiler._add_jumps`: place each jump
(with its counter channel id) into `_jump_times` in iteration order,
invoking `_order_jump` whenever the jump's tick is already taken. -/
def addJumps (jumps : List (SJump × Nat)) :
    Except String (List (Int × (SJump × Nat))) :=
  jumps.foldlM
    (fun times jc =>
      match dictLookup jc.1.tick times with
      | some (oj, oid) => orderJump 1000 times jc.1 jc.2 oj oid
      | none => .ok (dictInsert jc.1.tick jc times))
    []

/-- The expected behaviour in the basic collision: when exactly two jumps
contest a tick whose predecessor tick is free, the jump with the later
sequence time keeps the tick and the earlier one is shifted one tick
back. -/
theorem order_jump_simple_shift (fuel : Nat) (times : List (Int × (SJump × Nat)))
    (jump other : SJump) (jump_id other_id : Nat)
    (hlater : other.seqTime < jump.seqTime)
    (hfree : dictLookup (jump.tick - 1)
      (dictInsert jump.tick (jump, jump_id) times) = none) :
    orderJump (fuel + 1) times jump jump_id other other_id =
      .ok (dictInsert (jump.tick - 1) (other, other_id)
        (dictInsert jump.tick (jump, jump_id) times)) := by
  rw [orderJump]
  rw [if_pos (by omega)]
  simp only [hfree]

/-- C7, evaluated at the failing input (code_bug): jumps C, A, B with
pairwise-distinct sequence times 9.0, 10.0 and 10.4 quantizing to ticks 9,
10 and 10 (fixed-point sequence times 90, 100, 104).  Resolving the
collision between A and B requires shifting A below tick 10, but tick 9 is
occupied by C, and the recursive call re-derives the contested tick from
the shifted jump: it overwrites tick 10 with A (displacing B) and then
compares C with itself, raising the internal-consistency error meant for
two jumps with exactly equal sequence times — instead of shifting
recursively until the free tick 8 is found. -/
theorem add_jumps_chain_collision_bug :
    addJumps [(⟨"C", 90, 9⟩, 0), (⟨"A", 100, 10⟩, 1),
        (⟨"B", 104, 10⟩, 2)] =
      .error ("Sequence contains two jumps which are scheduled at the " ++
        "same sequence time. This should be caught during Sequence " ++
        "verification.") := by
  rfl

/-! ## src/objects/ControlRegister.py (C10) -/

/-- A control `Bit`: its declared register position (`value`), TDC input
channel and FPGA output channel.  (`Bit.verify` only checks that the three
fields are present; the model's fields are total.) -/
structure CRBit where
  value : Nat
  input : Nat
  output : Nat
  deriving DecidableEq, Repr

/-- A `ControlRegister`: its declared `length` and the `bits` dict mapping
register positions to `Bit`s. -/
structure ControlRegister where
  length : Nat
  bits : List (Nat × CRBit)
  deriving DecidableEq, Repr

/-- `ControlRegister.verify`, with the checks in source order: as many bits
as the declared length; unique bit positions; positions exactly
`0..length-1` (`sorted(keys) == range(length)`); every stored key equal to
its bit's declared value; pairwise-distinct output channels;
pairwise-distinct input channels. -/
def ControlRegister.verify (r : ControlRegister) : Except String Unit :=
  if r.bits.length ≠ r.length then
    .error "Number of defined bits has to be equal to defined length."
  else if ¬(r.bits.map Prod.fst).Nodup then
    .error "Defined bit values need to be unique."
  else if sortAscNat (r.bits.map Prod.fst) ≠ List.range r.length then
    .error "All bits from 0 to length-1 need to be defined."
  else if ¬(∀ p ∈ r.bits, p.2.value = p.1) then
    .error "Register value does not equal bit value."
  else if ¬(r.bits.map fun p => p.2.output).Nodup then
    .error "Output channels are not unique."
  else if ¬(r.bits.map fun p => p.2.input).Nodup then
    .error "Input channels are not unique."
  else
    .ok ()

/-- `ControlRegister.value_to_state`: reject a value above
`2^length - 1`, otherwise accumulate `((value >> bit) & 1) << output` over
the bits. -/
def ControlRegister.value_to_state (r : ControlRegister) (value : Nat) :
    Except String Nat :=
  if value > 2 ^ r.length - 1 then
    .error "Value exceeds register length."
  else
    .ok (r.bits.foldl
      (fun state p => state + (((value >>> p.1) &&& 1) <<< p.2.output)) 0)

/-- `ControlRegister.state_to_value`: accumulate
`((state & (1 << output)) >> output) << bit` over the bits. -/
def ControlRegister.state_to_value (r : ControlRegister) (state : Nat) :
    Nat :=
  r.bits.foldl
    (fun value p =>
      value + (((state &&& (1 <<< p.2.output)) >>> p.2.output) <<< p.1)) 0

/-! ### Bit-sum arithmetic for C10 -/

theorem foldl_add_eq_sum {α : Type} (f : α → Nat) (l : List α) :
    ∀ n : Nat, l.foldl (fun a x => a + f x) n = n + (l.map f).sum := by
  induction l with
  | nil => intro n; simp
  | cons x xs ih =>
    intro n
    simp only [List.foldl_cons, List.map_cons, List.sum_cons, ih]
    omega

/-- Adding `2^o` to a number whose bit `o` is clear sets exactly bit `o`. -/
theorem testBit_two_pow_add (o S : Nat) (hS : S.testBit o = false)
    (x : Nat) : (2 ^ o + S).testBit x = ((o == x) || S.testBit x) := by
  have hpow : 2 ^ (o + 1) = 2 * 2 ^ o := by ring
  have hL : S % 2 ^ (o + 1) < 2 ^ o := by
    have hlt : S % 2 ^ (o + 1) < 2 ^ (o + 1) :=
      Nat.mod_lt _ (Nat.pos_pow_of_pos _ (by norm_num))
    by_contra hge
    have hbit : (S % 2 ^ (o + 1)).testBit o = false := by
      rw [Nat.testBit_mod_two_pow, hS]
      simp
    rw [Nat.testBit_to_div_mod] at hbit
    have hdiv : S % 2 ^ (o + 1) / 2 ^ o = 1 :=
      Nat.div_eq_of_lt_le (by omega) (by omega)
    rw [hdiv] at hbit
    simp at hbit
  have hsplit : 2 ^ o + S =
      2 ^ (o + 1) * (S / 2 ^ (o + 1)) + (2 ^ o + S % 2 ^ (o + 1)) := by
    have := Nat.div_add_mod S (2 ^ (o + 1))
    omega
  rw [hsplit, Nat.testBit_mul_pow_two_add _ (by omega)]
  by_cases hx : x < o + 1
  · rw [if_pos hx]
    have hsplit2 : 2 ^ o + S % 2 ^ (o + 1) =
        2 ^ o * 1 + S % 2 ^ (o + 1) := by ring
    rw [hsplit2, Nat.testBit_mul_pow_two_add _ hL]
    by_cases hxo : x < o
    · rw [if_pos hxo, Nat.testBit_mod_two_pow]
      have : (o == x) = false := by
        simp only [beq_eq_false_iff_ne, ne_eq]
        omega
      simp [this, show x < o + 1 from hx]
    · have hxeq : x = o := by omega
      rw [if_neg hxo, hxeq]
      simp [Nat.sub_self, hS]
  · rw [if_neg hx]
    have hgt : o ≠ x := by omega
    have hge : o + 1 ≤ x := by omega
    have hdivbit : (S / 2 ^ (o + 1)).testBit (x - (o + 1)) = S.testBit x := by
      rw [← Nat.shiftRight_eq_div_pow, Nat.testBit_shiftRight]
      congr 1
      omega
    rw [hdivbit]
    have : (o == x) = false := by
      simp only [beq_eq_false_iff_ne, ne_eq]
      omega
    simp [this]

/-- The bits of a sum of distinct powers of two with 0/1 coefficients. -/
theorem testBit_sum_distinct :
    ∀ (l : List (Nat × Nat)), (∀ p ∈ l, p.1 ≤ 1) →
    (l.map Prod.snd).Nodup → ∀ x,
    ((l.map fun p : Nat × Nat => p.1 * 2 ^ p.2).sum).testBit x =
      l.any fun p : Nat × Nat => p.1 == 1 && p.2 == x := by
  intro l
  induction l with
  | nil =>
    intro _ _ x
    simp [Nat.zero_testBit]
  | cons p rest ih =>
    intro hc hnd x
    obtain ⟨c, o⟩ := p
    obtain ⟨hno, hnd2⟩ := List.nodup_cons.mp hnd
    have hcr : ∀ q ∈ rest, q.1 ≤ 1 :=
      fun q hq => hc q (List.mem_cons_of_mem _ hq)
    have hSo : ((rest.map fun p : Nat × Nat => p.1 * 2 ^ p.2).sum).testBit o =
        false := by
      rw [ih hcr hnd2 o]
      rw [List.any_eq_false]
      intro q hq
      have : q.2 ≠ o := fun he =>
        hno (he ▸ List.mem_map.mpr ⟨q, hq, rfl⟩)
      simp [this]
    have hc1 : c ≤ 1 := hc (c, o) (List.mem_cons_self _ _)
    match c, hc1 with
    | 0, _ =>
      simp only [List.map_cons, List.sum_cons, Nat.zero_mul, Nat.zero_add,
        List.any_cons]
      rw [ih hcr hnd2 x]
      simp
    | 1, _ =>
      simp only [List.map_cons, List.sum_cons, Nat.one_mul, List.any_cons]
      rw [testBit_two_pow_add o _ hSo x, ih hcr hnd2 x]
      simp

theorem any_false_of_not_mem_map {α : Type} (f : α → Nat) (g : α → Bool)
    (l : List α) (y : Nat) (h : y ∉ l.map f) :
    (l.any fun p => g p && (f p == y)) = false := by
  induction l with
  | nil => rfl
  | cons b rest ih =>
    simp only [List.map_cons, List.mem_cons, not_or] at h
    rw [List.any_cons, ih h.2]
    have : (f b == y) = false := by
      simp only [beq_eq_false_iff_ne, ne_eq]
      exact fun he => h.1 he.symm
    simp [this]

/-- In a list with pairwise-distinct keys, testing `f p == f a` against a
member `a` isolates `a` itself. -/
theorem any_eq_of_nodup_key {α : Type} (f : α → Nat) (g : α → Bool) :
    ∀ (l : List α), (l.map f).Nodup → ∀ a ∈ l,
    (l.any fun p => g p && (f p == f a)) = g a := by
  intro l
  induction l with
  | nil => intro _ a ha; cases ha
  | cons b rest ih =>
    intro hnd a ha
    rw [List.map_cons] at hnd
    obtain ⟨hnb, hnd2⟩ := List.nodup_cons.mp hnd
    rcases List.mem_cons.mp ha with rfl | har
    · rw [List.any_cons]
      rw [any_false_of_not_mem_map f g rest (f a) hnb]
      simp
    · rw [List.any_cons, ih hnd2 a har]
      have : (f b == f a) = false := by
        simp only [beq_eq_false_iff_ne, ne_eq]
        exact fun he => hnb (he ▸ List.mem_map.mpr ⟨a, har, rfl⟩)
      simp [this]

theorem insertAscNat_perm (x : Nat) (l : List Nat) :
    (insertAscNat x l).Perm (x :: l) := by
  induction l with
  | nil => exact List.Perm.refl _
  | cons y ys ih =>
    rw [insertAscNat]
    by_cases h : x ≤ y
    · rw [if_pos h]
    · rw [if_neg h]
      exact (ih.cons y).trans (List.Perm.swap x y ys)

theorem sortAscNat_perm (l : List Nat) : (sortAscNat l).Perm l := by
  induction l with
  | nil => exact List.Perm.refl _
  | cons x xs ih =>
    exact (insertAscNat_perm x (sortAscNat xs)).trans (ih.cons x)

/-- Summing a number's bits, weighted by their powers of two, over
`0..n-1` recovers the number modulo `2^n`. -/
theorem sum_testBit_range (v : Nat) :
    ∀ n : Nat,
    ((List.range n).map fun k => (v.testBit k).toNat * 2 ^ k).sum =
      v % 2 ^ n := by
  intro n
  induction n with
  | zero => simp [Nat.mod_one]
  | succ n ih =>
    rw [List.range_succ, List.map_append, List.sum_append, ih]
    have hpow : 2 ^ (n + 1) = 2 ^ n * 2 := by ring
    rw [hpow, Nat.mod_mul]
    have hbit : (v.testBit n).toNat = v / 2 ^ n % 2 := by
      rw [Nat.testBit_to_div_mod]
      rcases Nat.mod_two_eq_zero_or_one (v / 2 ^ n) with h | h <;> simp [h]
    simp [hbit]
    ring

theorem any_map_general {α β : Type} (f : α → β) (p : β → Bool) :
    ∀ l : List α, (l.map f).any p = l.any fun a => p (f a) := by
  intro l
  induction l with
  | nil => rfl
  | cons x xs ih => simp only [List.map_cons, List.any_cons, ih]

/-- `(v >> k) & 1` extracts bit `k` of `v`. -/
theorem shiftRight_and_one (v k : Nat) :
    (v >>> k) &&& 1 = (v.testBit k).toNat := by
  rw [Nat.and_one_is_mod, Nat.shiftRight_eq_div_pow, Nat.testBit_to_div_mod]
  rcases Nat.mod_two_eq_zero_or_one (v / 2 ^ k) with h | h <;> simp [h]

/-- `(s & (1 << o)) >> o` extracts bit `o` of `s`. -/
theorem and_shiftLeft_shiftRight (s o : Nat) :
    (s &&& (1 <<< o)) >>> o = (s.testBit o).toNat := by
  rw [Nat.shiftLeft_eq, Nat.one_mul, Nat.and_two_pow,
    Nat.shiftRight_eq_div_pow,
    Nat.mul_div_cancel _ (Nat.pos_pow_of_pos o (by norm_num))]

/-- C10: for every ControlRegister that passes verify() (bit positions are
exactly 0..length-1, each defined once, with pairwise-distinct output
channel numbers) and every integer v with 0 <= v <= 2^length - 1,
state_to_value(value_to_state(v)) = v; for every v > 2^length - 1,
value_to_state raises a ValueError instead of returning a state. -/
theorem control_register_roundtrip (r : ControlRegister) (v : Nat)
    (hok : r.verify = Except.ok ()) :
    (v ≤ 2 ^ r.length - 1 →
      ∃ s, r.value_to_state v = Except.ok s ∧ r.state_to_value s = v) ∧
    (2 ^ r.length - 1 < v →
      r.value_to_state v = Except.error "Value exceeds register length.") := by
  rw [ControlRegister.verify] at hok
  split_ifs at hok with h1 h2 h3 h4 h5 h6
  have hsorted : sortAscNat (r.bits.map Prod.fst) = List.range r.length :=
    not_not.mp h3
  have houts : (r.bits.map fun p => p.2.output).Nodup := h5
  constructor
  · intro hv
    have hvlt : v < 2 ^ r.length := by
      have hp2 : 0 < 2 ^ r.length := Nat.pos_pow_of_pos _ (by norm_num)
      omega
    refine ⟨r.bits.foldl
      (fun state p => state + (((v >>> p.1) &&& 1) <<< p.2.output)) 0,
      ?_, ?_⟩
    · rw [ControlRegister.value_to_state,
        if_neg (show ¬ v > 2 ^ r.length - 1 by omega)]
    · have hSsum : r.bits.foldl
          (fun state p => state + (((v >>> p.1) &&& 1) <<< p.2.output)) 0 =
          (r.bits.map fun p : Nat × CRBit =>
            ((v >>> p.1) &&& 1) <<< p.2.output).sum := by
        have h := foldl_add_eq_sum
          (fun p : Nat × CRBit => ((v >>> p.1) &&& 1) <<< p.2.output) r.bits 0
        simpa using h
      have hterm : (r.bits.map fun p : Nat × CRBit =>
          ((v >>> p.1) &&& 1) <<< p.2.output) =
          r.bits.map fun p : Nat × CRBit =>
            (v.testBit p.1).toNat * 2 ^ p.2.output := by
        refine List.map_congr_left fun p _ => ?_
        rw [shiftRight_and_one, Nat.shiftLeft_eq]
      rw [hSsum, hterm]
      have hbit : ∀ p ∈ r.bits,
          ((r.bits.map fun p : Nat × CRBit =>
            (v.testBit p.1).toNat * 2 ^ p.2.output).sum).testBit p.2.output =
          v.testBit p.1 := by
        intro p hp
        have hmap : (r.bits.map fun p : Nat × CRBit =>
            (v.testBit p.1).toNat * 2 ^ p.2.output) =
            ((r.bits.map fun p : Nat × CRBit =>
              ((v.testBit p.1).toNat, p.2.output)).map
              fun q : Nat × Nat => q.1 * 2 ^ q.2) := by
          rw [List.map_map]
          rfl
        have hc : ∀ q ∈ (r.bits.map fun p : Nat × CRBit =>
            ((v.testBit p.1).toNat, p.2.output)), q.1 ≤ 1 := by
          intro q hq
          obtain ⟨p2, -, rfl⟩ := List.mem_map.mp hq
          cases v.testBit p2.1 <;> simp
        have hnd : ((r.bits.map fun p : Nat × CRBit =>
            ((v.testBit p.1).toNat, p.2.output)).map Prod.snd).Nodup := by
          rw [List.map_map]
          exact houts
        rw [hmap, testBit_sum_distinct _ hc hnd p.2.output,
          any_map_general (fun p : Nat × CRBit =>
            ((v.testBit p.1).toNat, p.2.output))
            (fun q : Nat × Nat => q.1 == 1 && q.2 == p.2.output) r.bits]
        have hany : (r.bits.any fun a : Nat × CRBit =>
            ((v.testBit a.1).toNat == 1) && (a.2.output == p.2.output)) =
            ((v.testBit p.1).toNat == 1) :=
          any_eq_of_nodup_key (fun q : Nat × CRBit => q.2.output)
            (fun q : Nat × CRBit => (v.testBit q.1).toNat == 1)
            r.bits houts p hp
        rw [hany]
        cases v.testBit p.1 <;> rfl
      have hstv : r.state_to_value
          ((r.bits.map fun p : Nat × CRBit =>
            (v.testBit p.1).toNat * 2 ^ p.2.output).sum) =
          (r.bits.map fun p : Nat × CRBit =>
            (((r.bits.map fun p : Nat × CRBit =>
              (v.testBit p.1).toNat * 2 ^ p.2.output).sum &&&
              (1 <<< p.2.output)) >>> p.2.output) <<< p.1).sum := by
        rw [ControlRegister.state_to_value]
        have h := foldl_add_eq_sum
          (fun p : Nat × CRBit =>
            (((r.bits.map fun p : Nat × CRBit =>
              (v.testBit p.1).toNat * 2 ^ p.2.output).sum &&&
              (1 <<< p.2.output)) >>> p.2.output) <<< p.1) r.bits 0
        simpa using h
      rw [hstv]
      have hterm2 : (r.bits.map fun p : Nat × CRBit =>
          (((r.bits.map fun p : Nat × CRBit =>
            (v.testBit p.1).toNat * 2 ^ p.2.output).sum &&&
            (1 <<< p.2.output)) >>> p.2.output) <<< p.1) =
          r.bits.map fun p : Nat × CRBit =>
            (v.testBit p.1).toNat * 2 ^ p.1 := by
        refine List.map_congr_left fun p hp => ?_
        rw [and_shiftLeft_shiftRight, hbit p hp, Nat.shiftLeft_eq]
      rw [hterm2]
      have hfact : (r.bits.map fun p : Nat × CRBit =>
          (v.testBit p.1).toNat * 2 ^ p.1) =
          (r.bits.map Prod.fst).map fun k => (v.testBit k).toNat * 2 ^ k := by
        rw [List.map_map]
        rfl
      have hperm : (r.bits.map Prod.fst).Perm (List.range r.length) := by
        have h := (sortAscNat_perm (r.bits.map Prod.fst)).symm
        rwa [hsorted] at h
      rw [hfact,
        (hperm.map fun k => (v.testBit k).toNat * 2 ^ k).sum_eq,
        sum_testBit_range v r.length, Nat.mod_eq_of_lt hvlt]
  · intro hgt
    rw [ControlRegister.value_to_state, if_pos hgt]

/-- Witness for `control_register_roundtrip` at a concrete register:
length 2, bit 0 on output channel 5, bit 1 on output channel 2; the value 2
round-trips through state 4, and the value 5 is rejected. -/
theorem control_register_roundtrip_witness :
    (ControlRegister.mk 2 [(0, ⟨0, 3, 5⟩), (1, ⟨1, 4, 2⟩)]).verify =
      Except.ok () ∧
    (∃ s, (ControlRegister.mk 2 [(0, ⟨0, 3, 5⟩), (1, ⟨1, 4, 2⟩)]
        ).value_to_state 2 = Except.ok s ∧
      (ControlRegister.mk 2 [(0, ⟨0, 3, 5⟩), (1, ⟨1, 4, 2⟩)]
        ).state_to_value s = 2) ∧
    (ControlRegister.mk 2 [(0, ⟨0, 3, 5⟩), (1, ⟨1, 4, 2⟩)]).value_to_state 5 =
      Except.error "Value exceeds register length." := by
  have h2 := control_register_roundtrip
    (ControlRegister.mk 2 [(0, ⟨0, 3, 5⟩), (1, ⟨1, 4, 2⟩)]) 2 rfl
  have h5 := control_register_roundtrip
    (ControlRegister.mk 2 [(0, ⟨0, 3, 5⟩), (1, ⟨1, 4, 2⟩)]) 5 rfl
  exact ⟨rfl, h2.1 (by decide), h5.2 (by decide)⟩

/-! ## src/objects/_Sequence_verification.py (C2)

The reachability `Tree`: `_branch` builds a nested dict whose values are
sub-dicts, `Loop` markers, `Terminator`s, or — once the *global* depth
counter `self._depth` exceeds `MAX_DEPTH` — the bare `None` returned at
line 53.  The counter is incremented on every `_branch` call and reset to
`0` only when a `Loop` marker is produced or a `Terminator` is reached.
`check`/`_check` walk the dict, counting `Terminator` leaves, skipping
`Loop`s, and raising on any other non-dict value (i.e. on a `None` leaf).

A tree value and a branch dict, as a mutual pair (`PForest` is the assoc
list standing for the Python dict). -/

mutual

inductive PTree where
  | node : PForest → PTree
  | loop : String → PTree
  | term : PTree
  | overflow : PTree

inductive PForest where
  | nil : PForest
  | cons : String → PTree → PForest → PForest

end

/-- `Tree.MAX_DEPTH`. -/
def MAX_DEPTH : Nat := 100

/-- A jump-condition destination, already resolved by `_resolve_object`:
either a `Terminator` (tagged by the identity string `str(object_)` that
serves as its dict key) or another `Jump`, referred to by name. -/
inductive GDest where
  | term : String → GDest
  | jump : String → GDest

/-- The key under which a destination's subtree is stored in the branch
dict (`object_._name`, falling back to `str(object_)` for a Terminator). -/
def GDest.key : GDest → String
  | GDest.term s => s
  | GDest.jump n => n

/-- The jump graph of a sequence: each jump name maps to the resolved
destinations of its `compressed_conditions`, in order. -/
abbrev JumpGraph : Type := List (String × List GDest)

/-- `branch[name] = ...` on the modelled dict: overwrite in place or
append. -/
def PForest.insert (k : String) (v : PTree) : PForest → PForest
  | PForest.nil => PForest.cons k v PForest.nil
  | PForest.cons k0 v0 rest =>
      if k0 = k then PForest.cons k0 v rest
      else PForest.cons k0 v0 (rest.insert k v)

/-- The `for destination in point.compressed_conditions.values()` loop of
`_branch`: run `f` on each destination, store the result under the
destination's key, and thread the global depth counter through. -/
def branchFold (f : GDest → List String → Nat → PTree × Nat) :
    List GDest → List String → PForest → Nat → PForest × Nat
  | [], _, acc, depth => (acc, depth)
  | d :: ds, hist, acc, depth =>
    let r := f d hist depth
    branchFold f ds hist (acc.insert d.key r.1) r.2

/-- `Tree._branch` on a resolved point, with the graph `g` supplying each
jump's destinations: the depth counter is incremented on entry and `None`
(`overflow`) is returned beyond `MAX_DEPTH`; a `Terminator` resets the
counter; a revisited jump name becomes a `Loop` leaf and resets the
counter; a fresh jump appends its name to the (per-branch) history and
recurses over its destinations.  `fuel` bounds the recursion (the Python
recursion is unbounded); an unresolvable jump name also degenerates to
`overflow` but never occurs on the graphs used below. -/
def branchD (g : JumpGraph) :
    Nat → GDest → List String → Nat → PTree × Nat
  | 0, _, _, depth => (PTree.overflow, depth + 1)
  | fuel + 1, d, hist, depth =>
    if depth + 1 > MAX_DEPTH then (PTree.overflow, depth + 1)
    else
      match d with
      | GDest.term _ => (PTree.term, 0)
      | GDest.jump n =>
        if hist.contains n then (PTree.loop n, 0)
        else
          match dictLookup n g with
          | none => (PTree.overflow, depth + 1)
          | some dests =>
            let r := branchFold (branchD g fuel) dests (hist ++ [n])
              PForest.nil (depth + 1)
            (PTree.node r.1, r.2)

/-- `Tree.build` for a sequence whose first (earliest) jump is `first`:
the tree maps that jump's name to `_branch(first_jump, [])`, starting from
depth `0`. -/
def Tree.build (g : JumpGraph) (first : String) (fuel : Nat) : PForest :=
  PForest.cons first (branchD g fuel (GDest.jump first) [] 0).1 PForest.nil

mutual

/-- `Tree._check`, dispatch on one subbranch value: a `Loop` is skipped, a
`Terminator` counts one, a dict is recursed into, and any other value (the
`None` depth-cap leaf) raises. -/
def checkSub : PTree → Except String Nat
  | PTree.loop _ => Except.ok 0
  | PTree.term => Except.ok 1
  | PTree.node l => checkForest l
  | PTree.overflow => Except.error "Sequence contains infinite loops."

/-- `Tree._check` over a branch dict: accumulate the terminator count,
propagating a raised exception. -/
def checkForest : PForest → Except String Nat
  | PForest.nil => Except.ok 0
  | PForest.cons _ t rest =>
    match checkSub t with
    | Except.error e => Except.error e
    | Except.ok c =>
      match checkForest rest with
      | Except.error e => Except.error e
      | Except.ok c2 => Except.ok (c + c2)

end

/-- `Tree.check`: run `_check` over the tree and fail if no `Terminator`
was counted. -/
def Tree.check (tree : PForest) : Except String Unit :=
  match checkForest tree with
  | Except.error e => Except.error e
  | Except.ok c =>
    if c = 0 then Except.error "No Terminator is reached."
    else Except.ok ()

mutual

/-- Does some leaf of the tree value hold a `Terminator`? -/
def PTree.hasTerm : PTree → Bool
  | PTree.term => true
  | PTree.node l => l.hasTerm
  | _ => false

/-- Does some leaf of the branch dict hold a `Terminator`? -/
def PForest.hasTerm : PForest → Bool
  | PForest.nil => false
  | PForest.cons _ t rest => t.hasTerm || rest.hasTerm

end

mutual

/-- Is the tree value free of depth-cap (`None`) leaves? -/
def PTree.noOverflow : PTree → Bool
  | PTree.overflow => false
  | PTree.node l => l.noOverflow
  | _ => true

/-- Is the branch dict free of depth-cap (`None`) leaves? -/
def PForest.noOverflow : PForest → Bool
  | PForest.nil => true
  | PForest.cons _ t rest => t.noOverflow && rest.noOverflow

end

/-- A sequence whose first jump can either terminate at once or enter a
101-jump chain `J1 → J2 → ... → J101` whose last jump terminates: every
branch of the control flow reaches a Terminator, but walking the chain
pushes the global depth counter past `MAX_DEPTH`. -/
def chainGraph : JumpGraph :=
  ("root", [GDest.term "terminator-0", GDest.jump "J1"]) ::
  (List.range 101).map fun i =>
    ("J" ++ Nat.repr (i + 1),
      [if i + 1 = 101 then GDest.term "terminator-1"
       else GDest.jump ("J" ++ Nat.repr (i + 2))])

mutual

theorem checkSub_no_overflow :
    ∀ t : PTree, t.noOverflow = true →
    ∃ c, checkSub t = Except.ok c ∧ (t.hasTerm = true ↔ 0 < c)
  | PTree.loop s, _ => ⟨0, rfl, by simp [PTree.hasTerm]⟩
  | PTree.term, _ => ⟨1, rfl, by simp [PTree.hasTerm]⟩
  | PTree.overflow, h => by simp [PTree.noOverflow] at h
  | PTree.node l, h => by
    obtain ⟨c, hc, hiff⟩ := checkForest_no_overflow l
      (by simpa [PTree.noOverflow] using h)
    exact ⟨c, by simpa [checkSub] using hc,
      by simpa [PTree.hasTerm] using hiff⟩

theorem checkForest_no_overflow :
    ∀ l : PForest, l.noOverflow = true →
    ∃ c, checkForest l = Except.ok c ∧ (l.hasTerm = true ↔ 0 < c)
  | PForest.nil, _ => ⟨0, rfl, by simp [PForest.hasTerm]⟩
  | PForest.cons k t rest, h => by
    have hs : t.noOverflow = true ∧ rest.noOverflow = true := by
      simpa [PForest.noOverflow] using h
    obtain ⟨c1, hc1, hiff1⟩ := checkSub_no_overflow t hs.1
    obtain ⟨c2, hc2, hiff2⟩ := checkForest_no_overflow rest hs.2
    refine ⟨c1 + c2, ?_, ?_⟩
    · rw [checkForest, hc1, hc2]
    · rw [PForest.hasTerm, Bool.or_eq_true, hiff1, hiff2]
      omega

end

/-- C2 (amended): on a built tree free of depth-cap (`None`) leaves,
`Tree.check` succeeds exactly when at least one leaf is a `Terminator`;
`Loop` leaves are skipped and alone never cause failure.  (When the global
depth counter has produced a `None` leaf, `check` instead raises
"Sequence contains infinite loops." even if a `Terminator` leaf exists —
see the counterexample below.) -/
theorem tree_check_amended (t : PForest) (h : t.noOverflow = true) :
    Tree.check t = Except.ok () ↔ t.hasTerm = true := by
  obtain ⟨c, hc, hiff⟩ := checkForest_no_overflow t h
  rw [Tree.check, hc, hiff]
  rcases Nat.eq_zero_or_pos c with h0 | hpos
  · subst h0
    simp
  · have hne : c ≠ 0 := by omega
    simp [hne, hpos]

/-- Witness for `tree_check_amended` at a concrete overflow-free tree: a
jump with one Terminator destination and one Loop destination checks out. -/
theorem tree_check_amended_witness :
    (PForest.cons "J"
      (PTree.node (PForest.cons "terminator-0" PTree.term
        (PForest.cons "J" (PTree.loop "J") PForest.nil)))
      PForest.nil).noOverflow = true ∧
    (Tree.check (PForest.cons "J"
      (PTree.node (PForest.cons "terminator-0" PTree.term
        (PForest.cons "J" (PTree.loop "J") PForest.nil)))
      PForest.nil) = Except.ok () ↔
    (PForest.cons "J"
      (PTree.node (PForest.cons "terminator-0" PTree.term
        (PForest.cons "J" (PTree.loop "J") PForest.nil)))
      PForest.nil).hasTerm = true) :=
  ⟨rfl, tree_check_amended _ rfl⟩

set_option maxRecDepth 100000 in
/-- Counterexample to C2 as stated: in the tree built from `chainGraph`,
every control path reaches a Terminator — the root's first destination is
a Terminator leaf of the tree — yet `check` raises "Sequence contains
infinite loops.", because walking the 101-jump chain pushed the global
depth counter past `MAX_DEPTH` and left a `None` leaf. -/
theorem tree_check_depth_cap_cex :
    (Tree.build chainGraph "root" 300).hasTerm = true ∧
    Tree.check (Tree.build chainGraph "root" 300) =
      Except.error "Sequence contains infinite loops." :=
  ⟨rfl, rfl⟩

end PyFECS
